import Mathlib

/-!
# Formal model of the Insien editor's Merkle-based ingestion and sync core

This file gives a shallow embedding, in Lean 4, of the client-side sync core of
the Insien editor:

* `merkle-tree-service.ts` — content hashing (SHA-256), Merkle tree builder and
  tree differ (`hashContent`, `hashDirectory`, `buildNestedStructure`,
  `buildTreeFromNested`, `buildTreeFromFiles`, `compareTrees`,
  `collectAddedRecursive`, `collectDeletedRecursive`, `summarizeChanges`,
  `getFilesToProcess`);
* `local-ingestion-service.ts` — the sync orchestrator (`ingestFolder`,
  `startIngestion`, `syncWithMerkle`), modelled as pure functions from an
  explicit state plus an environment describing the host file reads and the
  server's responses, returning the result together with the trace of HTTP
  requests issued and events fired;
* the backend chat service — availability tracking of
  `BackendChatServiceImpl.init` and the SSE reader of `sendMessageStream`.

Host-library functions used by the code (Web Crypto SHA-256, `TextEncoder`,
`String.prototype.localeCompare`, `String.prototype.split`, `JSON.parse`) are
modelled explicitly; each model is documented at its definition.

Asynchrony is irrelevant to the properties considered here (the code runs on a
single cooperative scheduler); `await` points are simply sequential composition.
-/

namespace Insien

/-! ## Lexicographic comparison of lists of naturals -/

/-- Non-strict lexicographic order on `List Nat`, as a Bool-valued function so
that it reduces in the kernel. -/
def listLeB : List Nat → List Nat → Bool
  | [], _ => true
  | _ :: _, [] => false
  | a :: as, b :: bs => if a < b then true else if b < a then false else listLeB as bs

/-- Strict lexicographic order on `List Nat`. -/
def listLtB : List Nat → List Nat → Bool
  | _, [] => false
  | [], _ :: _ => true
  | a :: as, b :: bs => if a < b then true else if b < a then false else listLtB as bs

/-! ## Bytes, hex, SHA-256

The Web Crypto call `crypto.subtle.digest('SHA-256', data)` used by
`hashContent` is modelled by an executable SHA-256 over byte lists
(FIPS 180-4), with 32-bit words represented as `Nat` reduced mod `2^32`.
`TextEncoder.encode` is modelled by standard UTF-8 encoding of the string's
Unicode scalar values. -/

/-- UTF-8 encoding of one Unicode scalar value. -/
def utf8EncodeChar (c : Char) : List Nat :=
  let n := c.toNat
  if n < 0x80 then [n]
  else if n < 0x800 then
    [0xC0 ||| (n >>> 6), 0x80 ||| (n &&& 0x3F)]
  else if n < 0x10000 then
    [0xE0 ||| (n >>> 12), 0x80 ||| ((n >>> 6) &&& 0x3F), 0x80 ||| (n &&& 0x3F)]
  else
    [0xF0 ||| (n >>> 18), 0x80 ||| ((n >>> 12) &&& 0x3F),
     0x80 ||| ((n >>> 6) &&& 0x3F), 0x80 ||| (n &&& 0x3F)]

/-- `TextEncoder().encode(s)`: the UTF-8 bytes of `s`. -/
def utf8Encode (s : String) : List Nat :=
  s.data.flatMap utf8EncodeChar

/-- The UTF-8 byte length of a string (`TextEncoder().encode(content).length`). -/
def utf8ByteLength (s : String) : Nat := (utf8Encode s).length

/-- Reduce to a 32-bit word. -/
def w32 (n : Nat) : Nat := n % 4294967296

/-- 32-bit right rotation. -/
def rotr (x n : Nat) : Nat := w32 ((x >>> n) ||| (x <<< (32 - n)))

/-- The SHA-256 round constants. -/
def shaK : List Nat :=
  [1116352408, 1899447441, 3049323471, 3921009573, 961987163, 1508970993,
   2453635748, 2870763221, 3624381080, 310598401, 607225278, 1426881987,
   1925078388, 2162078206, 2614888103, 3248222580, 3835390401, 4022224774,
   264347078, 604807628, 770255983, 1249150122, 1555081692, 1996064986,
   2554220882, 2821834349, 2952996808, 3210313671, 3336571891, 3584528711,
   113926993, 338241895, 666307205, 773529912, 1294757372, 1396182291,
   1695183700, 1986661051, 2177026350, 2456956037, 2730485921, 2820302411,
   3259730800, 3345764771, 3516065817, 3600352804, 4094571909, 275423344,
   430227734, 506948616, 659060556, 883997877, 958139571, 1322822218,
   1537002063, 1747873779, 1955562222, 2024104815, 2227730452, 2361852424,
   2428436474, 2756734187, 3204031479, 3329325298]

/-- The SHA-256 initial hash value. -/
def shaInit : List Nat :=
  [1779033703, 3144134277, 1013904242, 2773480762,
   1359893119, 2600822924, 528734635, 1541459225]

/-- SHA-256 message padding to a multiple of 64 bytes. -/
def shaPad (msg : List Nat) : List Nat :=
  let len := msg.length
  let bitLen := len * 8
  let padZeros := (55 - len % 64 + 64) % 64
  msg ++ [0x80] ++ List.replicate padZeros 0 ++
    [(bitLen >>> 56) % 256, (bitLen >>> 48) % 256, (bitLen >>> 40) % 256, (bitLen >>> 32) % 256,
     (bitLen >>> 24) % 256, (bitLen >>> 16) % 256, (bitLen >>> 8) % 256, bitLen % 256]

/-- Big-endian packing of bytes into 32-bit words. -/
def toWords : List Nat → List Nat
  | b0 :: b1 :: b2 :: b3 :: rest => (b0 <<< 24 ||| b1 <<< 16 ||| b2 <<< 8 ||| b3) :: toWords rest
  | _ => []

/-- Split a word list into 16-word (512-bit) blocks. (Written with an explicit
16-deep pattern so the definition is structurally recursive and reduces in the
kernel.) -/
def toBlocks : List Nat → List (List Nat)
  | w0 :: w1 :: w2 :: w3 :: w4 :: w5 :: w6 :: w7 ::
    w8 :: w9 :: w10 :: w11 :: w12 :: w13 :: w14 :: w15 :: rest =>
    [w0, w1, w2, w3, w4, w5, w6, w7, w8, w9, w10, w11, w12, w13, w14, w15] :: toBlocks rest
  | [] => []
  | ws => [ws]

/-- σ₀ of the SHA-256 message schedule. -/
def smallSigma0 (x : Nat) : Nat := (rotr x 7) ^^^ (rotr x 18) ^^^ (x >>> 3)

/-- σ₁ of the SHA-256 message schedule. -/
def smallSigma1 (x : Nat) : Nat := (rotr x 17) ^^^ (rotr x 19) ^^^ (x >>> 10)

/-- Σ₀ of the SHA-256 compression function. -/
def bigSigma0 (x : Nat) : Nat := (rotr x 2) ^^^ (rotr x 13) ^^^ (rotr x 22)

/-- Σ₁ of the SHA-256 compression function. -/
def bigSigma1 (x : Nat) : Nat := (rotr x 6) ^^^ (rotr x 11) ^^^ (rotr x 25)

/-- Extend a 16-word block by `n` further schedule words. -/
def shaExtend (ws : List Nat) : Nat → List Nat
  | 0 => ws
  | n + 1 =>
    let ws' := shaExtend ws n
    let i := ws'.length
    ws' ++ [w32 (smallSigma1 (ws'.getD (i - 2) 0) + ws'.getD (i - 7) 0 +
                 smallSigma0 (ws'.getD (i - 15) 0) + ws'.getD (i - 16) 0)]

/-- One SHA-256 round on the eight-word working state. -/
def shaRound (st : List Nat) (k w : Nat) : List Nat :=
  match st with
  | [a, b, c, d, e, f, g, h] =>
    let ch := (e &&& f) ^^^ ((0xFFFFFFFF ^^^ e) &&& g)
    let maj := (a &&& b) ^^^ (a &&& c) ^^^ (b &&& c)
    let t1 := w32 (h + bigSigma1 e + ch + k + w)
    let t2 := w32 (bigSigma0 a + maj)
    [w32 (t1 + t2), a, b, c, w32 (d + t1), e, f, g]
  | _ => st

/-- The SHA-256 compression function over one block. -/
def shaCompress (h : List Nat) (block : List Nat) : List Nat :=
  let ws := shaExtend block 48
  let st := (shaK.zip ws).foldl (fun st kw => shaRound st kw.1 kw.2) h
  (h.zip st).map (fun p => w32 (p.1 + p.2))

/-- SHA-256 digest of a byte message, as eight 32-bit words. -/
def sha256Words (msg : List Nat) : List Nat :=
  (toBlocks (toWords (shaPad msg))).foldl shaCompress shaInit

/-- A lowercase hex digit. -/
def hexDigit (n : Nat) : Char :=
  if n < 10 then Char.ofNat (48 + n) else Char.ofNat (87 + n)

/-- `b.toString(16).padStart(2, '0')`: two lowercase hex digits of a byte. -/
def byteToHex (b : Nat) : List Char := [hexDigit (b / 16), hexDigit (b % 16)]

/-- Unpack a 32-bit word into four big-endian bytes. -/
def wordToBytes (w : Nat) : List Nat := [(w >>> 24) % 256, (w >>> 16) % 256, (w >>> 8) % 256, w % 256]

/-- Lowercase-hex SHA-256 digest of a byte message. -/
def sha256Hex (msg : List Nat) : String :=
  String.mk (((sha256Words msg).flatMap wordToBytes).flatMap byteToHex)

/-- `MerkleTreeServiceImpl.hashContent`: UTF-8 encode and return the
lowercase hex of the SHA-256 digest. -/
def hashContent (s : String) : String := sha256Hex (utf8Encode s)

/-! ## The comparator used by the builder: `localeCompare`

`merkle-tree-service.ts` sorts directory children with
`(a, b) => a.path.localeCompare(b.path)`.  `String.prototype.localeCompare` is
a host function (ECMA-402); under the default locale of the major engines it
performs CLDR collation.  We model it for ASCII strings: letters compare
case-insensitively at primary strength (so `a < B`), with case as a weaker
tie-break, and any residual tie broken by code points so that the modelled
comparator is a total order.  Non-letters take primary weights below letters,
and characters beyond ASCII compare above letters by code point.  What the
claims rely on is (a) the concrete fact that the collation orders `"a.ts"`
before `"B.ts"`, unlike UTF-16 code-unit order, and (b) that the comparator is
a total order separating distinct strings. -/

/-- Primary collation weight of one character (see `localeKey`). -/
def charPrimary (c : Char) : Nat :=
  let n := c.toNat
  if 97 ≤ n ∧ n ≤ 122 then 2000 + 2 * (n - 97)       -- lowercase letter
  else if 65 ≤ n ∧ n ≤ 90 then 2000 + 2 * (n - 65)   -- uppercase letter, tied with its lowercase
  else if 48 ≤ n ∧ n ≤ 57 then 1000 + (n - 48)       -- digit
  else if n < 128 then 1 + n                          -- other ASCII below digits and letters
  else 3000 + n                                       -- beyond ASCII: above letters, by code point

/-- Case weight of one character: lowercase before uppercase at equal letters. -/
def charCase (c : Char) : Nat :=
  let n := c.toNat
  if 97 ≤ n ∧ n ≤ 122 then 1
  else if 65 ≤ n ∧ n ≤ 90 then 2
  else 0

/-- Collation key of a string for the modelled `localeCompare`: primary
weights, then case weights, then raw code points, with `0` separators (every
weight in the first two segments is positive for letters, and the final code
point segment makes the key injective). -/
def localeKey (s : String) : List Nat :=
  s.data.map charPrimary ++ [0] ++ s.data.map charCase ++ [0] ++ s.data.map Char.toNat

/-- `a.localeCompare(b) <= 0` in the modelled collation. -/
def localeLeB (a b : String) : Bool := listLeB (localeKey a) (localeKey b)

/-! ## UTF-16 code units (for the spec's claimed ordering)

The spec claims children are ordered by lexicographic comparison of UTF-16
code units (the ordering of the JavaScript `<` operator on strings). -/

/-- UTF-16 code units of one scalar value (surrogate pair above U+FFFF). -/
def utf16EncodeChar (c : Char) : List Nat :=
  let n := c.toNat
  if n < 0x10000 then [n]
  else [0xD800 + ((n - 0x10000) >>> 10), 0xDC00 + ((n - 0x10000) &&& 0x3FF)]

/-- The UTF-16 code units of a string. -/
def utf16Units (s : String) : List Nat :=
  s.data.flatMap utf16EncodeChar

/-- Strict lexicographic comparison of UTF-16 code units (JavaScript `a < b`). -/
def utf16LtB (a b : String) : Bool := listLtB (utf16Units a) (utf16Units b)

/-! ## Data model of `merkle-tree-service.ts` -/

/-- `enum NodeType`. -/
inductive NodeType where
  | File
  | Directory
deriving DecidableEq, Repr

/-- `enum ChangeType`. -/
inductive ChangeType where
  | Added
  | Modified
  | Deleted
deriving DecidableEq, Repr

/-- `interface MerkleNodeJSON`.  `children` is `none` exactly when the
JavaScript object lacks the optional `children` field. -/
structure MerkleNodeJSON where
  hash : String
  nodeType : NodeType
  path : String
  size : Nat
  modifiedAt : Nat
  createdAt : Nat
  children : Option (List MerkleNodeJSON)
  isLeaf : Bool
deriving Repr

/-- `interface FileChange`; the optional hash fields are `none` when the
pushed object omits them. -/
structure FileChange where
  changeType : ChangeType
  path : String
  oldHash : Option String
  newHash : Option String
deriving DecidableEq, Repr

/-- `interface ChangeSummary`. -/
structure ChangeSummary where
  added : Nat
  modified : Nat
  deleted : Nat
  total : Nat
deriving DecidableEq, Repr

/-- `interface FileInput`. -/
structure FileInput where
  path : String
  content : String
  size : Option Nat
  lastModified : Option Nat
deriving DecidableEq, Repr

/-- `interface MerkleSyncResult` of the tree service. -/
structure MerkleSyncResult where
  changes : List FileChange
  summary : ChangeSummary
  filesToProcess : List String
  deletedFiles : List String
deriving DecidableEq, Repr

/-- A `{hash, path}` record as passed to `hashDirectory`. -/
structure ChildRef where
  hash : String
  path : String
deriving DecidableEq, Repr

/-- The comparator `(a, b) => a.path.localeCompare(b.path)` interpreted as a
non-strict relation, for sorting `{hash, path}` records. -/
def refLe (a b : ChildRef) : Prop := localeLeB a.path b.path = true

instance : DecidableRel refLe := fun _ _ => inferInstanceAs (Decidable (_ = true))

/-- `MerkleTreeServiceImpl.hashDirectory`: sort a copy of the children by
`path.localeCompare`, concatenate `hash ++ path` over the sorted children with
no separator, and hash the result. -/
def hashDirectory (children : List ChildRef) : String :=
  let sorted := List.insertionSort refLe children
  let combined := String.join (sorted.map fun c => c.hash ++ c.path)
  hashContent combined

/-! ## The nested structure built by `buildNestedStructure`

A JavaScript object `Record<string, NestedNode>` is modelled as an association
list in key-insertion order: assigning to an existing key replaces the value
in place, assigning a fresh key appends. -/

/-- `interface NestedNode` (the `children` field is present exactly for
directories, the others exactly for files). -/
inductive NestedNode where
  | file (content : String) (size : Option Nat) (lastModified : Nat)
  | dir (children : List (String × NestedNode))
deriving Repr

/-- Object property read `children[part]`. -/
def lookupChild (k : String) : List (String × NestedNode) → Option NestedNode
  | [] => none
  | (k', v) :: rest => if k' = k then some v else lookupChild k rest

/-- Object property write `children[part] = v`: replace in place, or append. -/
def upsertChild (k : String) (v : NestedNode) : List (String × NestedNode) → List (String × NestedNode)
  | [] => [(k, v)]
  | (k', v') :: rest => if k' = k then (k, v) :: rest else (k', v') :: upsertChild k v rest

/-- JavaScript `String.prototype.split(sep)` on a one-character separator,
defined on character lists (e.g. `split '/' "a//b" = ["a", "", "b"]`,
`split '/' "" = [""]`; the result is never empty). -/
def splitOnCharL (sep : Char) : List Char → List (List Char)
  | [] => [[]]
  | c :: cs =>
    match splitOnCharL sep cs with
    | [] => [[]]
    | p :: ps => if c = sep then [] :: p :: ps else (c :: p) :: ps

/-- `file.path.split('/')` as a list of strings. -/
def pathParts (s : String) : List String :=
  (splitOnCharL '/' s.data).map String.mk

/-- `file.lastModified || Date.now()`: JavaScript truthiness, so an absent
field and an explicit `0` both fall back to the clock. -/
def orNow (lastModified : Option Nat) (now : Nat) : Nat :=
  match lastModified with
  | some n => if n = 0 then now else n
  | none => now

/-- The inner loop of `buildNestedStructure` walking the split path.  `none`
models the run-time `TypeError` the source throws when the walk steps into an
existing file node (`current.children!` is `undefined` there, and the next
loop iteration dereferences it).  The `[]` case is unreachable:
`split('/')` never returns an empty array. -/
def insertParts (f : FileInput) (now : Nat) :
    List (String × NestedNode) → List String → Option (List (String × NestedNode))
  | ch, [part] =>
    some (upsertChild part (.file f.content f.size (orNow f.lastModified now)) ch)
  | ch, part :: p2 :: rest =>
    match lookupChild part ch with
    | some (.dir ch') =>
      (insertParts f now ch' (p2 :: rest)).map fun ch'' => upsertChild part (.dir ch'') ch
    | some (.file _ _ _) => none
    | none =>
      (insertParts f now [] (p2 :: rest)).map fun ch'' => upsertChild part (.dir ch'') ch
  | _, [] => none

/-- `MerkleTreeServiceImpl.buildNestedStructure`: fold every file into the
trie rooted at `{type: 'directory', children: {}}`; `none` models the thrown
`TypeError` on a path conflict (file node used as a directory). -/
def buildNestedStructure (files : List FileInput) (now : Nat) : Option NestedNode :=
  (files.foldl (fun acc f => acc.bind fun ch => insertParts f now ch (pathParts f.path)) (some [])).map .dir

/-- The node `insertParts` places at the head key, as a function of the
existing node there and the remaining components (used to factor
`insertParts` when reasoning about two insertions). -/
def nodeAfterInsert (f : FileInput) (now : Nat) (cur : Option NestedNode) :
    List String → Option NestedNode
  | [] => some (.file f.content f.size (orNow f.lastModified now))
  | p2 :: rest =>
    match cur with
    | some (.file _ _ _) => none
    | some (.dir ch') => (insertParts f now ch' (p2 :: rest)).map .dir
    | none => (insertParts f now [] (p2 :: rest)).map .dir

/-- The child path rule of `buildTreeFromNested`:
`path === 'root' ? name : path + '/' + name`. -/
def childPathOf (path name : String) : String :=
  if path = "root" then name else path ++ "/" ++ name

/-- The comparator `(a, b) => a.path.localeCompare(b.path)` on built nodes. -/
def nodeLe (a b : MerkleNodeJSON) : Prop := localeLeB a.path b.path = true

instance : DecidableRel nodeLe := fun _ _ => inferInstanceAs (Decidable (_ = true))

mutual

/-- `MerkleTreeServiceImpl.buildTreeFromNested`: hash a file's content, or
recursively build, sort (by `path.localeCompare`) and combine a directory's
children.  `now` is the injected clock (`Date.now()`, milliseconds). -/
def buildTreeFromNested (node : NestedNode) (path : String) (now : Nat) : MerkleNodeJSON :=
  match node with
  | .file content size lastModified =>
    { hash := hashContent content
      nodeType := .File
      path := path
      size := size.getD (utf8ByteLength content)
      modifiedAt := (if lastModified = 0 then now else lastModified) / 1000
      createdAt := (if lastModified = 0 then now else lastModified) / 1000
      children := none
      isLeaf := true }
  | .dir ch =>
    let children := List.insertionSort nodeLe (buildChildList ch path now)
    { hash := hashDirectory (children.map fun c => ⟨c.hash, c.path⟩)
      nodeType := .Directory
      path := path
      size := 0
      modifiedAt := now / 1000
      createdAt := now / 1000
      children := some children
      isLeaf := false }

/-- The `for (const [name, childNode] of entries)` loop of
`buildTreeFromNested`, in object insertion order. -/
def buildChildList (entries : List (String × NestedNode)) (path : String) (now : Nat) :
    List MerkleNodeJSON :=
  match entries with
  | [] => []
  | (name, c) :: rest => buildTreeFromNested c (childPathOf path name) now :: buildChildList rest path now

end

/-- `MerkleTreeServiceImpl.buildTreeFromFiles`.  The empty input returns the
fixed empty-root node; otherwise the nested structure is built and converted.
`none` models the `TypeError` thrown on a path conflict (the promise rejects). -/
def buildTreeFromFiles (files : List FileInput) (now : Nat) : Option MerkleNodeJSON :=
  if files.length = 0 then
    some { hash := hashContent ""
           nodeType := .Directory
           path := "root"
           size := 0
           modifiedAt := now / 1000
           createdAt := now / 1000
           children := some []
           isLeaf := false }
  else
    (buildNestedStructure files now).map fun root => buildTreeFromNested root "root" now

/-! ### Auxiliary notions for reasoning about the builder

These are specification-side notions (leaf enumeration, path component
relations, a canonical child order) used to state and prove properties of
the builder; they are not part of the translated source. -/

/-- `initSegB a b`: the component list `a` is an initial segment of `b`
(including `a = b`). -/
def initSegB : List String → List String → Bool
  | [], _ => true
  | _ :: _, [] => false
  | a :: as, b :: bs => a == b && initSegB as bs

/-- Two paths are compatible when, split on `/`, neither component list is
an initial segment of the other (this excludes equal paths as well): such a
pair can coexist in one tree without one file overwriting or colliding with
a directory of the other. -/
def pathsCompatible (p q : String) : Bool :=
  !initSegB (pathParts p) (pathParts q) && !initSegB (pathParts q) (pathParts p)

/-- A path is `root`-safe when it is a single component, or its first
component is not the literal `root` (a top-level *directory* named `root`
re-triggers the builder's synthetic-root path rule and corrupts descendant
paths). -/
def rootSafe (p : String) : Bool :=
  (pathParts p).length == 1 || ((pathParts p).headD "") != "root"

mutual

/-- The leaves of a nested node as (component path, content) pairs, in
traversal order. -/
def leafComps : NestedNode → List (List String × String)
  | .file content _ _ => [([], content)]
  | .dir ch => leafCompsList ch

/-- The leaves of a children list; each child's leaves are prefixed with its
name. -/
def leafCompsList : List (String × NestedNode) → List (List String × String)
  | [] => []
  | (name, c) :: rest =>
    (leafComps c).map (fun e => (name :: e.1, e.2)) ++ leafCompsList rest

end

/-- Fold of the builder's child-path rule along a component list. -/
def joinPath (p : String) : List String → String
  | [] => p
  | c :: cs => joinPath (childPathOf p c) cs

/-- Interleave `/` between character-list fragments (the inverse of
`splitOnCharL '/'`). -/
def charJoin : List (List Char) → List Char
  | [] => []
  | [p] => p
  | p :: rest => p ++ '/' :: charJoin rest

/-- A canonical total key for strings: the raw code points. -/
def strKey (s : String) : List Nat := s.data.map Char.toNat

/-- A canonical order on children entries by name, used only to state that
the built tree does not depend on object insertion order. -/
def pairLe (a b : String × NestedNode) : Prop := listLeB (strKey a.1) (strKey b.1) = true

instance : DecidableRel pairLe := fun _ _ => inferInstanceAs (Decidable (_ = true))

mutual

/-- Canonical form of a nested node: children sorted by name, recursively. -/
def normTrie : NestedNode → NestedNode
  | .file content size lastModified => .file content size lastModified
  | .dir ch => .dir (List.insertionSort pairLe (normChildren ch))

/-- Canonical form of a children list (values normalised; sorting is done by
`normTrie` on the surrounding directory). -/
def normChildren : List (String × NestedNode) → List (String × NestedNode)
  | [] => []
  | (name, c) :: rest => (name, normTrie c) :: normChildren rest

end

/-- The canonical form of a children list as a directory body: values
normalised, entries sorted by name. -/
def normForm (ch : List (String × NestedNode)) : List (String × NestedNode) :=
  List.insertionSort pairLe (normChildren ch)

mutual

/-- Deeply distinct names: every directory level of a nested node has
pairwise-distinct child names. -/
def dnnNode : NestedNode → Prop
  | .file _ _ _ => True
  | .dir ch => (ch.map (·.1)).Nodup ∧ dnnList ch

/-- `dnnNode` over a children list. -/
def dnnList : List (String × NestedNode) → Prop
  | [] => True
  | (_, c) :: rest => dnnNode c ∧ dnnList rest

end

/-- The loop body of the `buildNestedStructure` fold over one file (named so
that the accumulator-passing lemmas about the fold can refer to it). -/
def stepIns (now : Nat) (acc : Option (List (String × NestedNode))) (f : FileInput) :
    Option (List (String × NestedNode)) :=
  acc.bind fun ch => insertParts f now ch (pathParts f.path)

/-- Invariant carried by the fold accumulator: whenever it is `some`, every
directory level of the accumulated children has pairwise-distinct names. -/
def accDnn (acc : Option (List (String × NestedNode))) : Prop :=
  ∀ ch, acc = some ch → ((ch.map (·.1)).Nodup ∧ dnnList ch)

/-- Adjacent-pairs check: the paths of a children array are non-decreasing
under the modelled `localeCompare` collation. -/
def pairwiseLocaleLe : List MerkleNodeJSON → Bool
  | [] => true
  | [_] => true
  | a :: b :: rest => localeLeB a.path b.path && pairwiseLocaleLe (b :: rest)

mutual

/-- Every directory node of the tree has its children array sorted by
`path` under the modelled `localeCompare` collation. -/
def localeSortedTree (node : MerkleNodeJSON) : Bool :=
  match node with
  | ⟨_, _, _, _, _, _, children, _⟩ =>
    match children with
    | some ch => pairwiseLocaleLe ch && localeSortedAll ch
    | none => true

/-- `localeSortedTree` over a children array. -/
def localeSortedAll : List MerkleNodeJSON → Bool
  | [] => true
  | c :: rest => localeSortedTree c && localeSortedAll rest

end

/-! ## The tree differ (`compareTrees`) -/

mutual

/-- `MerkleTreeServiceImpl.collectAddedRecursive` (returning the pushed
changes instead of mutating an accumulator; order is preserved). -/
def collectAddedRecursive : MerkleNodeJSON → List FileChange
  | ⟨hash, _, path, _, _, _, children, isLeaf⟩ =>
    if isLeaf then
      [{ changeType := .Added, path := path, oldHash := none, newHash := some hash }]
    else
      match children with
      | some ch => collectAddedList ch
      | none => []

/-- The child loop of `collectAddedRecursive`. -/
def collectAddedList : List MerkleNodeJSON → List FileChange
  | [] => []
  | c :: rest => collectAddedRecursive c ++ collectAddedList rest

end

mutual

/-- `MerkleTreeServiceImpl.collectDeletedRecursive`. -/
def collectDeletedRecursive : MerkleNodeJSON → List FileChange
  | ⟨hash, _, path, _, _, _, children, isLeaf⟩ =>
    if isLeaf then
      [{ changeType := .Deleted, path := path, oldHash := some hash, newHash := none }]
    else
      match children with
      | some ch => collectDeletedList ch
      | none => []

/-- The child loop of `collectDeletedRecursive`. -/
def collectDeletedList : List MerkleNodeJSON → List FileChange
  | [] => []
  | c :: rest => collectDeletedRecursive c ++ collectDeletedList rest

end

/-- `Map.set` on a JavaScript `Map` modelled as an association list: an
existing key keeps its position and takes the new value, a fresh key is
appended.  Map iteration order is list order. -/
def mapSet : List (String × MerkleNodeJSON) → String → MerkleNodeJSON → List (String × MerkleNodeJSON)
  | [], k, v => [(k, v)]
  | (k', v') :: rest, k, v => if k' = k then (k, v) :: rest else (k', v') :: mapSet rest k v

/-- `Map.get`. -/
def mapLookup : List (String × MerkleNodeJSON) → String → Option MerkleNodeJSON
  | [], _ => none
  | (k', v) :: rest, k => if k' = k then some v else mapLookup rest k

/-- The `for (const child of children) map.set(child.path, child)` loops of
`compareTreesRecursive`. -/
def buildPathMap (children : List MerkleNodeJSON) : List (String × MerkleNodeJSON) :=
  children.foldl (fun m c => mapSet m c.path c) []

/-- Membership in `mapSet` comes from the original map or the set pair. -/
theorem mem_mapSet {m : List (String × MerkleNodeJSON)} {k v x}
    (h : x ∈ mapSet m k v) : x ∈ m ∨ x = (k, v) := by
  induction m with
  | nil => simp [mapSet] at h; simp [h]
  | cons kv rest ih =>
    obtain ⟨k', v'⟩ := kv
    simp only [mapSet] at h
    split at h
    · rcases List.mem_cons.mp h with h | h
      · right; exact h
      · left; exact List.mem_cons_of_mem _ h
    · rcases List.mem_cons.mp h with h | h
      · left; simp [h]
      · rcases ih h with h | h
        · left; exact List.mem_cons_of_mem _ h
        · right; exact h

/-- Every value in `buildPathMap children` is one of the children. -/
theorem snd_mem_of_mem_buildPathMap {children : List MerkleNodeJSON} {p : String}
    {v : MerkleNodeJSON} (h : (p, v) ∈ buildPathMap children) : v ∈ children := by
  suffices H : ∀ (l : List MerkleNodeJSON) (m : List (String × MerkleNodeJSON))
      (x : String × MerkleNodeJSON),
      x ∈ l.foldl (fun m c => mapSet m c.path c) m → x ∈ m ∨ x.2 ∈ l by
    rcases H children [] (p, v) h with h' | h'
    · simp at h'
    · exact h'
  intro l
  induction l with
  | nil => intro m x h; exact Or.inl h
  | cons c rest ih =>
    intro m x h
    simp only [List.foldl_cons] at h
    rcases ih (mapSet m c.path c) x h with h' | h'
    · rcases mem_mapSet h' with h'' | h''
      · exact Or.inl h''
      · right; subst h''; simp
    · right; exact List.mem_cons_of_mem _ h'

/-- A member of a node's `children` field is smaller than the node. -/
theorem sizeOf_lt_of_mem_children {node : MerkleNodeJSON} {l : List MerkleNodeJSON}
    {c : MerkleNodeJSON} (hl : node.children = some l) (hc : c ∈ l) :
    sizeOf c < sizeOf node := by
  obtain ⟨h1, h2, h3, h4, h5, h6, ch, h8⟩ := node
  simp at hl
  subst hl
  have := List.sizeOf_lt_of_mem hc
  simp only [MerkleNodeJSON.mk.sizeOf_spec, Option.some.sizeOf_spec]
  omega

/-- `MerkleTreeServiceImpl.compareTreesRecursive`: identical hashes stop the
recursion; two files give a `Modified`; two directories are compared through
path-keyed maps (deletions first, then additions/recursions in new-children
map order); a type change expands into a full delete plus a full add. -/
def compareTreesRecursive (oldNode newNode : MerkleNodeJSON) : List FileChange :=
  if oldNode.hash = newNode.hash then []
  else if oldNode.isLeaf && newNode.isLeaf then
    [{ changeType := .Modified, path := newNode.path,
       oldHash := some oldNode.hash, newHash := some newNode.hash }]
  else if !oldNode.isLeaf && !newNode.isLeaf then
    let oldChildren := oldNode.children.getD []
    let newChildren := newNode.children.getD []
    let oldMap := buildPathMap oldChildren
    let newMap := buildPathMap newChildren
    let deletions := oldMap.flatMap fun pc =>
      if (mapLookup newMap pc.1).isSome then [] else collectDeletedRecursive pc.2
    let additions := newMap.attach.flatMap fun pc =>
      match mapLookup oldMap pc.1.1 with
      | some oldChild =>
        if oldChild.hash ≠ pc.1.2.hash then compareTreesRecursive oldChild pc.1.2 else []
      | none => collectAddedRecursive pc.1.2
    deletions ++ additions
  else
    collectDeletedRecursive oldNode ++ collectAddedRecursive newNode
termination_by sizeOf newNode
decreasing_by
  have hv : pc.1.2 ∈ newNode.children.getD [] :=
    @snd_mem_of_mem_buildPathMap _ pc.1.1 _ (by simpa using pc.2)
  obtain ⟨h1, h2, h3, h4, h5, h6, ch, h8⟩ := newNode
  cases ch with
  | none => simp at hv
  | some l =>
    simp only [Option.getD_some] at hv
    have := List.sizeOf_lt_of_mem hv
    simp only [MerkleNodeJSON.mk.sizeOf_spec, Option.some.sizeOf_spec]
    omega

/-- `MerkleTreeServiceImpl.summarizeChanges`. -/
def summarizeChanges (changes : List FileChange) : ChangeSummary :=
  let added := (changes.filter fun c => c.changeType = .Added).length
  let modified := (changes.filter fun c => c.changeType = .Modified).length
  let deleted := (changes.filter fun c => c.changeType = .Deleted).length
  { added := added, modified := modified, deleted := deleted,
    total := added + modified + deleted }

/-- `MerkleTreeServiceImpl.getFilesToProcess`. -/
def getFilesToProcess (changes : List FileChange) : List String :=
  (changes.filter fun c => c.changeType = .Added ∨ c.changeType = .Modified).map (·.path)

/-- `MerkleTreeServiceImpl.compareTrees`. -/
def compareTrees (oldTree : Option MerkleNodeJSON) (newTree : MerkleNodeJSON) : MerkleSyncResult :=
  let changes :=
    match oldTree with
    | none => collectAddedRecursive newTree
    | some o =>
      if o.hash = newTree.hash then []
      else compareTreesRecursive o newTree
  { changes := changes
    summary := summarizeChanges changes
    filesToProcess := getFilesToProcess changes
    deletedFiles := (changes.filter fun c => c.changeType = .Deleted).map (·.path) }

/-! ## The sync orchestrator (`local-ingestion-service.ts`)

The orchestrator is modelled as pure functions from an explicit service state
and an environment to an outcome recording the returned value, the final
state, the HTTP requests issued (in order) and the events fired (in order).
The environment carries what the boundary collaborators would answer: the
collected workspace files with their read results (the `collectFiles`
traversal plus `fileService.read`, which are host file-system behaviour), and
the server's response to each request. -/

namespace LocalIngestion

/-- The four values of `ingestionStatus`. -/
inductive IngestionStatus where
  | pending
  | processing
  | completed
  | failed
deriving DecidableEq, Repr

/-- `interface LocalProjectInfo`. -/
structure LocalProjectInfo where
  projectId : String
  localHash : String
  folderName : String
  folderPath : String
  ingestionStatus : IngestionStatus
  totalFiles : Nat
  processedFiles : Nat
  totalChunks : Nat
  error : Option String
deriving DecidableEq, Repr

/-- The `progress` record of an `IngestionProgress` event. -/
structure ProgressBody where
  total : Nat
  processed : Nat
  chunks : Nat
  percent : Nat
deriving DecidableEq, Repr

/-- `interface IngestionProgress`. -/
structure IngestionProgress where
  projectId : String
  status : IngestionStatus
  progress : ProgressBody
  error : Option String
deriving DecidableEq, Repr

/-- A change record as the backend reports it
(`Array<{changeType: string; path: string}>`). -/
structure SyncChange where
  changeType : String
  path : String
deriving DecidableEq, Repr

/-- `interface MerkleSyncResult` of `local-ingestion-service.ts` (optional
fields are `none` when the returned object omits them). -/
structure MerkleSyncResult where
  success : Bool
  changes : Option (List SyncChange)
  summary : Option Insien.ChangeSummary
  filesProcessed : Option Nat
  filesDeleted : Option Nat
  error : Option String
deriving DecidableEq, Repr

/-- An event fired on one of the service's four emitters. -/
inductive IngestionEvent where
  | projectChanged (p : Option LocalProjectInfo)
  | ingestionProgress (p : IngestionProgress)
  | ingestionComplete (p : LocalProjectInfo)
  | ingestionError (projectId : String) (error : String)
deriving DecidableEq, Repr

/-- An HTTP request issued by the service (what each `fetch` call sends). -/
inductive Request where
  | checkProject (folderPath folderName : String)
  | createProject (folderPath folderName : String)
  | ingestInit (projectId : String) (totalFiles : Nat) (tree : MerkleNodeJSON)
  | ingestFiles (projectId : String) (batchIndex totalBatches : Nat) (paths : List String)
  | progressReq (projectId : String)
  | merkleSyncPhase1 (projectId : String) (tree : MerkleNodeJSON)
  | merkleSyncPhase2 (projectId : String) (tree : MerkleNodeJSON) (files : List (String × String))

/-- Is this event an `onIngestionError` firing? -/
def IngestionEvent.isError : IngestionEvent → Bool
  | .ingestionError _ _ => true
  | _ => false

/-- Is this event an `onIngestionComplete` firing? -/
def IngestionEvent.isComplete : IngestionEvent → Bool
  | .ingestionComplete _ => true
  | _ => false

/-- The batch index of a `/files` request, if it is one. -/
def Request.batchIndex : Request → Option Nat
  | .ingestFiles _ i _ _ => some i
  | _ => none

/-- Is this request a phase-2 merkle-sync upload? -/
def Request.isPhase2 : Request → Bool
  | .merkleSyncPhase2 _ _ _ => true
  | _ => false

/-- The mutable fields of `LocalIngestionServiceImpl`. -/
structure ServiceState where
  initialized : Bool
  backendUrl : String
  authToken : String
  currentProject : Option LocalProjectInfo
  currentMerkleTree : Option MerkleNodeJSON

/-- One entry of the `collectFiles` result (path relative to the root, stat
size) together with the outcome of `fileService.read` on it (`none`: the read
threw and the file is skipped with a warning). -/
structure CollectedFile where
  path : String
  size : Nat
  read : Option String
deriving DecidableEq, Repr

/-- Outcome of a `fetch` whose parsed JSON body has type `α`:
the promise rejects with an error message, or the response is non-2xx
(carrying `statusText` and the optional `error` field of the JSON error body),
or it succeeds. -/
inductive FetchOutcome (α : Type) where
  | fetchThrow (msg : String)
  | notOk (statusText : String) (errorBody : Option String)
  | ok (body : α)

/-- `errorData.error || response.statusText` (JavaScript truthiness: an
absent or empty `error` field falls back to the status text). -/
def jsOrElse (a : Option String) (b : String) : String :=
  match a with
  | some s => if s = "" then b else s
  | none => b

/-- Phase-1 body of `POST /api/projects/:id/merkle-sync`; every field the
code reads defensively is optional. -/
structure Phase1Body where
  changes : Option (List SyncChange)
  summary : Option Insien.ChangeSummary
  needsFiles : Option (List String)

/-- Phase-2 body of `POST /api/projects/:id/merkle-sync`. -/
structure Phase2Body where
  changes : Option (List SyncChange)
  summary : Option Insien.ChangeSummary
  filesProcessed : Option Nat
  filesDeleted : Option Nat

/-- The boundary behaviour a `syncWithMerkle` call observes. -/
structure SyncEnv where
  collected : List CollectedFile
  phase1 : FetchOutcome Phase1Body
  phase2 : FetchOutcome Phase2Body

/-- What a `syncWithMerkle` call produces: its returned `MerkleSyncResult`,
the requests issued, the events fired, and `_currentMerkleTree` afterwards. -/
structure SyncOutcome where
  result : MerkleSyncResult
  requests : List Request
  events : List IngestionEvent
  finalTree : Option MerkleNodeJSON

/-- `Map.get` on the path→content map (`fileContentMap`); keys are unique in
a JavaScript `Map`, and repeated `set` keeps the first position with the last
value, so the first match of this in-place-updating association list is the
map's value. -/
def strMapSet : List (String × String) → String → String → List (String × String)
  | [], k, v => [(k, v)]
  | (k', v') :: rest, k, v => if k' = k then (k, v) :: rest else (k', v') :: strMapSet rest k v

/-- `Map.get`. -/
def strMapGet : List (String × String) → String → Option String
  | [], _ => none
  | (k', v) :: rest, k => if k' = k then some v else strMapGet rest k

/-- The file inputs `syncWithMerkle` builds (`{path, content, size}`, no
`lastModified`), skipping files whose read threw. -/
def syncFilesWithContent (collected : List CollectedFile) : List FileInput :=
  collected.filterMap fun f =>
    f.read.map fun c => { path := f.path, content := c, size := some f.size, lastModified := none }

/-- The `fileContentMap` built alongside. -/
def syncFileContentMap (collected : List CollectedFile) : List (String × String) :=
  (collected.filterMap fun f => f.read.map fun c => (f.path, c)).foldl
    (fun m pc => strMapSet m pc.1 pc.2) []

/-- `LocalIngestionServiceImpl.syncWithMerkle`: collect and read the local
files, build the new tree, POST it (phase 1); if the server needs no file
contents, adopt the new tree and return; otherwise POST the requested
contents (phase 2) and adopt the new tree only on success.  Any thrown error
(including a tree-builder `TypeError`, modelled by the builder returning
`none` with the fixed message `"TypeError"`) is caught and returned as a
failure.  No event is fired on any path of this method. -/
def syncWithMerkle (st : ServiceState) (env : SyncEnv) (projectId : String) (now : Nat) :
    SyncOutcome :=
  if env.collected.length = 0 then
    { result := { success := true, changes := none, summary := some ⟨0, 0, 0, 0⟩,
                  filesProcessed := none, filesDeleted := none, error := none }
      requests := [], events := [], finalTree := st.currentMerkleTree }
  else
    let filesWithContent := syncFilesWithContent env.collected
    let fileContentMap := syncFileContentMap env.collected
    match Insien.buildTreeFromFiles filesWithContent now with
    | none =>
      { result := { success := false, changes := none, summary := none,
                    filesProcessed := none, filesDeleted := none, error := some "TypeError" }
        requests := [], events := [], finalTree := st.currentMerkleTree }
    | some newMerkleTree =>
      match env.phase1 with
      | .fetchThrow msg =>
        { result := { success := false, changes := none, summary := none,
                      filesProcessed := none, filesDeleted := none, error := some msg }
          requests := [.merkleSyncPhase1 projectId newMerkleTree]
          events := [], finalTree := st.currentMerkleTree }
      | .notOk statusText errorBody =>
        { result := { success := false, changes := none, summary := none,
                      filesProcessed := none, filesDeleted := none,
                      error := some (jsOrElse errorBody statusText) }
          requests := [.merkleSyncPhase1 projectId newMerkleTree]
          events := [], finalTree := st.currentMerkleTree }
      | .ok body =>
        if body.needsFiles.getD [] = [] then
          { result := { success := true, changes := body.changes, summary := body.summary,
                        filesProcessed := some 0,
                        filesDeleted := some ((body.summary.map (·.deleted)).getD 0),
                        error := none }
            requests := [.merkleSyncPhase1 projectId newMerkleTree]
            events := [], finalTree := some newMerkleTree }
        else
          let needs := body.needsFiles.getD []
          let changedFiles := needs.filterMap fun p => (strMapGet fileContentMap p).map ((p, ·))
          match env.phase2 with
          | .fetchThrow msg =>
            { result := { success := false, changes := none, summary := none,
                          filesProcessed := none, filesDeleted := none, error := some msg }
              requests := [.merkleSyncPhase1 projectId newMerkleTree,
                           .merkleSyncPhase2 projectId newMerkleTree changedFiles]
              events := [], finalTree := st.currentMerkleTree }
          | .notOk statusText errorBody =>
            { result := { success := false, changes := none, summary := none,
                          filesProcessed := none, filesDeleted := none,
                          error := some (jsOrElse errorBody statusText) }
              requests := [.merkleSyncPhase1 projectId newMerkleTree,
                           .merkleSyncPhase2 projectId newMerkleTree changedFiles]
              events := [], finalTree := st.currentMerkleTree }
          | .ok body2 =>
            { result := { success := true, changes := body2.changes, summary := body2.summary,
                          filesProcessed := body2.filesProcessed,
                          filesDeleted := body2.filesDeleted, error := none }
              requests := [.merkleSyncPhase1 projectId newMerkleTree,
                           .merkleSyncPhase2 projectId newMerkleTree changedFiles]
              events := [], finalTree := some newMerkleTree }

/-- Server reply to one batch `POST /api/local-ingest/:id/files`. -/
inductive BatchOutcome where
  | fetchThrow (msg : String)
  | notOk (statusText : String)
  | ok (totalProcessed totalChunks : Nat) (isComplete : Bool)

/-- Did this batch fetch reject (throw)? -/
def BatchOutcome.isThrow : BatchOutcome → Bool
  | .fetchThrow _ => true
  | _ => false

/-- The boundary behaviour a `startIngestion` call observes.  `initThrow` is
`some msg` when the `/init` fetch rejects (its response status is logged but
never checked, so only a thrown fetch is observable). -/
structure IngestEnv where
  collected : List CollectedFile
  initThrow : Option String
  batches : Nat → BatchOutcome

/-- What a `startIngestion` call produces. -/
structure IngestOutcome where
  requests : List Request
  events : List IngestionEvent
  finalProject : Option LocalProjectInfo
  finalTree : Option MerkleNodeJSON

/-- `Math.round((totalProcessed / total) * 100)` computed exactly over
rationals (round half up); the source computes it in floating point, which
agrees on these small magnitudes. -/
def jsRoundPercent (processed total : Nat) : Nat :=
  (200 * processed + total) / (2 * total)

/-- The file inputs `startIngestion` builds (`lastModified: Date.now()`). -/
def ingestFilesWithContent (collected : List CollectedFile) (now : Nat) : List FileInput :=
  collected.filterMap fun f =>
    f.read.map fun c => { path := f.path, content := c, size := some f.size, lastModified := some now }

/-- `{...this._currentProject!, ingestionStatus: 'completed', processedFiles,
totalChunks}`: spread of the possibly-`undefined` current project (an
`undefined` spread contributes no fields, leaving the defaults below). -/
def completedProject (cur : Option LocalProjectInfo) (processed chunks : Nat) :
    LocalProjectInfo :=
  let base := cur.getD { projectId := "", localHash := "", folderName := "", folderPath := "",
                         ingestionStatus := .pending, totalFiles := 0, processedFiles := 0,
                         totalChunks := 0, error := none }
  { base with ingestionStatus := .completed, processedFiles := processed, totalChunks := chunks }

/-- The batch loop of `startIngestion` over the remaining batch indices.
A thrown fetch escapes to the catch, which fires `onIngestionError` and ends
the method; a non-2xx response is only logged and the loop continues; a 2xx
response fires a progress event and, when `isComplete`, updates the current
project and fires `onIngestionComplete` (the loop still continues). -/
def runBatches (replies : Nat → BatchOutcome) (projectId : String)
    (filesWithContent : List FileInput) (totalBatches : Nat) :
    List Nat → Option LocalProjectInfo →
    List Request × List IngestionEvent × Option LocalProjectInfo
  | [], cur => ([], [], cur)
  | i :: rest, cur =>
    let batch := (filesWithContent.drop (i * 20)).take 20
    let req := Request.ingestFiles projectId i totalBatches (batch.map (·.path))
    match replies i with
    | .fetchThrow msg => ([req], [.ingestionError projectId msg], cur)
    | .notOk _ =>
      let (rs, es, cur') := runBatches replies projectId filesWithContent totalBatches rest cur
      (req :: rs, es, cur')
    | .ok totalProcessed totalChunks isComplete =>
      let ev := IngestionEvent.ingestionProgress
        { projectId := projectId
          status := if isComplete then .completed else .processing
          progress := { total := filesWithContent.length, processed := totalProcessed,
                        chunks := totalChunks,
                        percent := jsRoundPercent totalProcessed filesWithContent.length }
          error := none }
      if isComplete then
        let p' := completedProject cur totalProcessed totalChunks
        let (rs, es, cur') := runBatches replies projectId filesWithContent totalBatches rest (some p')
        (req :: rs, ev :: .ingestionComplete p' :: es, cur')
      else
        let (rs, es, cur') := runBatches replies projectId filesWithContent totalBatches rest cur
        (req :: rs, ev :: es, cur')

/-- `LocalIngestionServiceImpl.startIngestion`: collect and read the files,
build and store the Merkle tree, POST `/init`, then POST the files in batches
of 20.  A thrown error anywhere lands in the catch, which fires exactly one
`onIngestionError`. -/
def startIngestion (st : ServiceState) (env : IngestEnv) (projectId : String) (now : Nat) :
    IngestOutcome :=
  if env.collected.length = 0 then
    { requests := [], events := [], finalProject := st.currentProject,
      finalTree := st.currentMerkleTree }
  else
    let filesWithContent := ingestFilesWithContent env.collected now
    if filesWithContent.length = 0 then
      { requests := [], events := [], finalProject := st.currentProject,
        finalTree := st.currentMerkleTree }
    else
      match Insien.buildTreeFromFiles filesWithContent now with
      | none =>
        { requests := [], events := [.ingestionError projectId "TypeError"],
          finalProject := st.currentProject, finalTree := st.currentMerkleTree }
      | some merkleTree =>
        let initReq := Request.ingestInit projectId filesWithContent.length merkleTree
        match env.initThrow with
        | some msg =>
          { requests := [initReq], events := [.ingestionError projectId msg],
            finalProject := st.currentProject, finalTree := some merkleTree }
        | none =>
          let totalBatches := (filesWithContent.length + 19) / 20
          let (rs, es, cur') := runBatches env.batches projectId filesWithContent totalBatches
            (List.range totalBatches) st.currentProject
          { requests := initReq :: rs, events := es, finalProject := cur',
            finalTree := some merkleTree }

/-- One `GET /progress` reply observed by `pollIngestionProgress`. -/
inductive PollOutcome where
  | fetchThrow
  | notOk
  | ok (status : IngestionStatus) (progress : ProgressBody) (error : Option String)

/-- The polling loop of `pollIngestionProgress` over the supplied replies
(an exhausted list models a poll still pending when observation stops).
Transport failures stop polling silently; `processing` re-arms the timer;
`completed` updates the project and fires completion; `failed` fires an
error event; any other status stops silently. -/
def pollRun (projectId : String) :
    List PollOutcome → Option LocalProjectInfo →
    List Request × List IngestionEvent × Option LocalProjectInfo
  | [], cur => ([], [], cur)
  | reply :: rest, cur =>
    let req := Request.progressReq projectId
    match reply with
    | .fetchThrow => ([req], [], cur)
    | .notOk => ([req], [], cur)
    | .ok status progress error =>
      let ev := IngestionEvent.ingestionProgress
        { projectId := projectId, status := status, progress := progress, error := error }
      match status with
      | .processing =>
        let (rs, es, cur') := pollRun projectId rest cur
        (req :: rs, ev :: es, cur')
      | .completed =>
        let p' := completedProject cur progress.processed progress.chunks
        ([req], [ev, .ingestionComplete p'], some p')
      | .failed =>
        ([req], [ev, .ingestionError projectId (jsOrElse error "Ingestion failed")], cur)
      | .pending => ([req], [ev], cur)

/-- `folderUri`: the model keeps the two strings `ingestFolder` reads from
the URI (`folderUri.path.toString()` and `folderUri.path.base`). -/
structure FolderURI where
  path : String
  base : String

/-- The boundary behaviour an `ingestFolder` call observes.  `check` is the
value `checkProjectExists` returns: that helper catches every failure (a
thrown fetch, a non-404 error status, a 404, and `exists: false` all yield
`undefined`), so only the found-project/not-found distinction is observable
beyond the request itself.  Likewise `create` is the `createProject` result
(`projectId`, `localHash`), `none` covering every caught failure. -/
structure IngestFolderEnv where
  check : Option LocalProjectInfo
  create : Option (String × String)
  sync : SyncEnv
  ingest : IngestEnv
  poll : List PollOutcome

/-- What an `ingestFolder` call produces. -/
structure IngestFolderOutcome where
  result : Option LocalProjectInfo
  finalState : ServiceState
  requests : List Request
  events : List IngestionEvent

/-- `LocalIngestionServiceImpl.ingestFolder`: the main driver.  Returns
`undefined` immediately when the service was never initialized; otherwise
checks for the project on the server and either merkle-syncs / polls /
idles on an existing project, or creates a new project and runs a full
ingestion.  (Events of the fire-and-forget polling are appended to the
trace; their later real-time arrival does not affect the stated claims.) -/
def ingestFolder (st : ServiceState) (env : IngestFolderEnv) (uri : FolderURI) (now : Nat) :
    IngestFolderOutcome :=
  if !st.initialized then
    { result := none, finalState := st, requests := [], events := [] }
  else
    let folderPath := uri.path
    let folderName := uri.base
    let checkReq := Request.checkProject folderPath folderName
    match env.check with
    | some existingProject =>
      let st1 := { st with currentProject := some existingProject }
      let pcEv := IngestionEvent.projectChanged (some existingProject)
      match existingProject.ingestionStatus with
      | .completed =>
        let syncOut := syncWithMerkle st1 env.sync existingProject.projectId now
        { result := some existingProject
          finalState := { st1 with currentMerkleTree := syncOut.finalTree }
          requests := checkReq :: syncOut.requests
          events := pcEv :: syncOut.events }
      | .processing =>
        let (rs, es, cur') := pollRun existingProject.projectId env.poll st1.currentProject
        { result := some existingProject
          finalState := { st1 with currentProject := cur' }
          requests := checkReq :: rs
          events := pcEv :: es }
      | .failed =>
        { result := some existingProject, finalState := st1,
          requests := [checkReq], events := [pcEv] }
      | .pending =>
        { result := some existingProject, finalState := st1,
          requests := [checkReq], events := [pcEv] }
    | none =>
      let createReq := Request.createProject folderPath folderName
      match env.create with
      | none =>
        { result := none, finalState := st, requests := [checkReq, createReq], events := [] }
      | some (projectId, localHash) =>
        let newProject : LocalProjectInfo :=
          { projectId := projectId, localHash := localHash, folderName := folderName,
            folderPath := folderPath, ingestionStatus := .pending, totalFiles := 0,
            processedFiles := 0, totalChunks := 0, error := none }
        let st2 := { st with currentProject := some newProject }
        let ingOut := startIngestion st2 env.ingest projectId now
        let st3 := { st2 with currentProject := ingOut.finalProject }
        { result := some newProject
          finalState := { st3 with currentMerkleTree := ingOut.finalTree }
          requests := checkReq :: createReq :: ingOut.requests
          events := .projectChanged (some newProject) :: ingOut.events }

end LocalIngestion

/-! ## The chat gateway (`BackendChatServiceImpl`) -/

namespace BackendChat

open LocalIngestion

/-- A notification the gateway's `init` handlers observe: an
`onProjectChanged` event (with its payload) or an `onIngestionComplete`
event (whose payload the handler ignores). -/
inductive ChatNotification where
  | projectChanged (p : Option LocalProjectInfo)
  | ingestionComplete
deriving DecidableEq

/-- Is this notification an `onProjectChanged` one? -/
def ChatNotification.isProjectChangedNotif : ChatNotification → Bool
  | .projectChanged _ => true
  | .ingestionComplete => false

/-- `project?.ingestionStatus === 'completed'`. -/
def availabilityOf (p : Option LocalProjectInfo) : Bool :=
  match p with
  | some q => q.ingestionStatus = .completed
  | none => false

/-- One step of the two listeners installed by `BackendChatServiceImpl.init`:
the resulting `_isAvailable` and the values fired on
`onAvailabilityChanged` during the step.  The `onProjectChanged` listener
fires only when availability changes; the `onIngestionComplete` listener
sets availability and fires `true` unconditionally. -/
def chatStep (isAvailable : Bool) : ChatNotification → Bool × List Bool
  | .projectChanged p =>
    let next := availabilityOf p
    (next, if next ≠ isAvailable then [next] else [])
  | .ingestionComplete => (true, [true])

/-- Folding `chatStep` over a notification sequence: the final availability
and the concatenated `onAvailabilityChanged` trace. -/
def chatRun (isAvailable : Bool) : List ChatNotification → Bool × List Bool
  | [] => (isAvailable, [])
  | n :: rest =>
    let step := chatStep isAvailable n
    let tail := chatRun step.1 rest
    (tail.1, step.2 ++ tail.2)

/-! ### The SSE reader of `sendMessageStream`

Lines and chunks are character lists (the model's boundary is after
`TextDecoder.decode`, which turns the received bytes into strings).
`JSON.parse` is a host function; the stream processor takes the parse
function as a parameter (`none` models a thrown `SyntaxError`), and a
concrete executable model `jsonParses` below instantiates it where a
concrete run is evaluated. -/

/-- An event fired on `onStreamEvent`: either a parsed `data:` payload
(fired blindly, whatever JSON arrived), or one of the literally constructed
`{type: 'error', message}` records of the error paths. -/
inductive SSEFired (α : Type) where
  | parsed (payload : α)
  | errorEvent (message : String)
deriving DecidableEq

/-- Is this fired stream event one of the error-path
`{type: 'error', message}` records? -/
def SSEFired.isError {α : Type} : SSEFired α → Bool
  | .errorEvent _ => true
  | .parsed _ => false

/-- `'data: '`. -/
def dataMarker : List Char := ['d', 'a', 't', 'a', ':', ' ']

/-- Process a batch of complete lines: for each line starting with
`data: `, parse the remainder; a successful parse fires the payload, a
failed parse is ignored (the empty catch), and other lines are skipped. -/
def processSSELines (parse : List Char → Option α) (lines : List (List Char)) :
    List (SSEFired α) :=
  lines.filterMap fun line =>
    if dataMarker.isPrefixOf line then (parse (line.drop 6)).map .parsed else none

/-- The reader loop: append each chunk to the rolling buffer, split on
newlines, keep the trailing partial line as the new buffer, and process the
complete lines.  When reading finishes, the final buffer is discarded. -/
def processChunks (parse : List Char → Option α) :
    List Char → List (List Char) → List (SSEFired α)
  | _, [] => []
  | buffer, chunk :: rest =>
    let lines := splitOnCharL '\n' (buffer ++ chunk)
    let newBuffer := (lines.getLast?).getD []
    processSSELines parse lines.dropLast ++ processChunks parse newBuffer rest

/-- What a `sendMessageStream` call observes after the guard: the fetch
rejects; or the response is non-2xx; or it has no body; or it delivers the
given decoded chunks, after which the reader either finishes cleanly or
throws (`readThrow`). -/
inductive StreamOutcome where
  | fetchThrow (msg : String)
  | notOk (statusText : String)
  | noBody
  | okBody (chunks : List (List Char)) (readThrow : Option String)

/-- Does this outcome end in one of the transport error paths (fetch
rejection, non-2xx, missing body, reader exception)? -/
def StreamOutcome.transportFails : StreamOutcome → Bool
  | .fetchThrow _ => true
  | .notOk _ => true
  | .noBody => true
  | .okBody _ readThrow => readThrow.isSome

/-- `BackendChatServiceImpl.sendMessageStream`: the full event trace fired
on `onStreamEvent` for one call. -/
def sendMessageStream (parse : List Char → Option α) (isAvailable : Bool)
    (outcome : StreamOutcome) : List (SSEFired α) :=
  if !isAvailable then
    [.errorEvent "Backend chat not available. Workspace needs to be ingested first."]
  else
    match outcome with
    | .fetchThrow msg => [.errorEvent msg]
    | .notOk statusText => [.errorEvent ("Request failed: " ++ statusText)]
    | .noBody => [.errorEvent "No response body"]
    | .okBody chunks readThrow =>
      processChunks parse [] chunks ++
        match readThrow with
        | some msg => [.errorEvent msg]
        | none => []

/-! ### An executable model of `JSON.parse` validity

A recursive-descent checker for RFC 8259 JSON syntax (fuelled by the input
length).  Only acceptance matters where it is used: a `data:` line is fired
iff its remainder parses, so the concrete counterexample needs the fact
that a given remainder is not JSON. -/

/-- Skip JSON whitespace. -/
def skipWs : List Char → List Char
  | c :: cs => if c = ' ' ∨ c = '\t' ∨ c = '\n' ∨ c = '\r' then skipWs cs else c :: cs
  | [] => []

/-- Is a JSON digit. -/
def isDigitCh (c : Char) : Bool := 48 ≤ c.toNat ∧ c.toNat ≤ 57

/-- Consume one or more digits. -/
def eatDigits : List Char → Option (List Char)
  | c :: cs => if isDigitCh c then some (eatDigits1 cs) else none
  | [] => none
where
  /-- Consume the remaining digits. -/
  eatDigits1 : List Char → List Char
    | c :: cs => if isDigitCh c then eatDigits1 cs else c :: cs
    | [] => []

/-- Consume a JSON number after an optional leading minus. -/
def eatNumber (l : List Char) : Option (List Char) := do
  let l ← match l with
    | '-' :: cs => pure cs
    | _ => pure l
  let l ← eatDigits l
  let l ← match l with
    | '.' :: cs => eatDigits cs
    | _ => pure l
  match l with
    | 'e' :: cs | 'E' :: cs =>
      match cs with
      | '+' :: cs' | '-' :: cs' => eatDigits cs'
      | _ => eatDigits cs
    | _ => pure l

/-- Consume a JSON string body after the opening quote. -/
def eatStringBody : List Char → Option (List Char)
  | '"' :: cs => some cs
  | '\\' :: _ :: cs => eatStringBody cs
  | _ :: cs => eatStringBody cs
  | [] => none

mutual

/-- Consume one JSON value. -/
def eatValue (fuel : Nat) (l : List Char) : Option (List Char) :=
  match fuel with
  | 0 => none
  | fuel + 1 =>
    match l with
    | 'n' :: 'u' :: 'l' :: 'l' :: cs => some cs
    | 't' :: 'r' :: 'u' :: 'e' :: cs => some cs
    | 'f' :: 'a' :: 'l' :: 's' :: 'e' :: cs => some cs
    | '"' :: cs => eatStringBody cs
    | '[' :: cs =>
      let cs := skipWs cs
      match cs with
      | ']' :: cs' => some cs'
      | _ => eatElements fuel cs
    | '{' :: cs =>
      let cs := skipWs cs
      match cs with
      | '}' :: cs' => some cs'
      | _ => eatMembers fuel cs
    | _ => eatNumber l

/-- Consume comma-separated array elements and the closing bracket. -/
def eatElements (fuel : Nat) (l : List Char) : Option (List Char) :=
  match fuel with
  | 0 => none
  | fuel + 1 => do
    let rest ← eatValue fuel (skipWs l)
    match skipWs rest with
    | ',' :: cs => eatElements fuel cs
    | ']' :: cs => some cs
    | _ => none

/-- Consume comma-separated object members and the closing brace. -/
def eatMembers (fuel : Nat) (l : List Char) : Option (List Char) :=
  match fuel with
  | 0 => none
  | fuel + 1 =>
    match skipWs l with
    | '"' :: cs => do
      let rest ← eatStringBody cs
      match skipWs rest with
      | ':' :: cs' => do
        let rest' ← eatValue fuel (skipWs cs')
        match skipWs rest' with
        | ',' :: cs'' => eatMembers fuel cs''
        | '}' :: cs'' => some cs''
        | _ => none
      | _ => none
    | _ => none

end

/-- `JSON.parse(text)` succeeds: the whole text is one JSON value. -/
def jsonParses (l : List Char) : Bool :=
  match eatValue (l.length + 1) (skipWs l) with
  | some rest => skipWs rest = []
  | none => false

/-- The concrete parse function used to evaluate concrete runs: the payload
is the raw accepted text (the properties under consideration never inspect
the parsed value, only whether parsing succeeded). -/
def jsonParseModel (l : List Char) : Option (List Char) :=
  if jsonParses l then some l else none

end BackendChat

/-! # Theorems

First, order-theoretic infrastructure for the sorting comparator. -/

theorem listLeB_total (a b : List Nat) : listLeB a b = true ∨ listLeB b a = true := by
  induction a generalizing b with
  | nil => left; rfl
  | cons x xs ih =>
    cases b with
    | nil => right; rfl
    | cons y ys =>
      simp only [listLeB]
      rcases Nat.lt_trichotomy x y with h | h | h
      · left; simp [h]
      · subst h
        rcases ih ys with h' | h' <;> simp [h', Nat.lt_irrefl]
      · right; simp [h, Nat.lt_asymm h]

theorem listLeB_trans {a b c : List Nat} (hab : listLeB a b = true)
    (hbc : listLeB b c = true) : listLeB a c = true := by
  induction a generalizing b c with
  | nil => rfl
  | cons x xs ih =>
    cases b with
    | nil => simp [listLeB] at hab
    | cons y ys =>
      cases c with
      | nil => simp [listLeB] at hbc
      | cons z zs =>
        simp only [listLeB] at hab hbc ⊢
        rcases Nat.lt_trichotomy x y with h1 | h1 | h1
        · rcases Nat.lt_trichotomy y z with h2 | h2 | h2
          · simp [Nat.lt_trans h1 h2]
          · subst h2; simp [h1]
          · simp [h2, Nat.lt_asymm h2] at hbc
        · subst h1
          rcases Nat.lt_trichotomy x z with h2 | h2 | h2
          · simp [h2]
          · subst h2
            simp only [Nat.lt_irrefl, if_false] at hab hbc ⊢
            exact ih hab hbc
          · simp [h2, Nat.lt_asymm h2] at hbc
        · simp [h1, Nat.lt_asymm h1] at hab

theorem listLeB_antisymm {a b : List Nat} (hab : listLeB a b = true)
    (hba : listLeB b a = true) : a = b := by
  induction a generalizing b with
  | nil =>
    cases b with
    | nil => rfl
    | cons y ys => simp [listLeB] at hba
  | cons x xs ih =>
    cases b with
    | nil => simp [listLeB] at hab
    | cons y ys =>
      simp only [listLeB] at hab hba
      rcases Nat.lt_trichotomy x y with h1 | h1 | h1
      · simp [h1, Nat.lt_asymm h1] at hba
      · subst h1
        simp only [Nat.lt_irrefl, if_false] at hab hba
        rw [ih hab hba]
      · simp [h1, Nat.lt_asymm h1] at hab

/-- `Char.toNat` is injective. -/
theorem charToNat_injective : Function.Injective Char.toNat := by
  intro c d h
  exact Char.eq_of_val_eq (UInt32.ext h)

/-- The collation key determines the string (its final segment is the raw
code-point list). -/
theorem localeKey_injective : Function.Injective localeKey := by
  intro a b h
  have hlen : (localeKey a).length = (localeKey b).length := by rw [h]
  simp only [localeKey, List.length_append, List.length_map, List.length_cons,
    List.length_singleton] at hlen
  have hdlen : a.data.length = b.data.length := by omega
  have key_reshape : ∀ s : String, localeKey s =
      (s.data.map charPrimary ++ [0] ++ s.data.map charCase ++ [0]) ++ s.data.map Char.toNat := by
    intro s; simp [localeKey]
  have hpre : ∀ s : String,
      ((s.data.map charPrimary ++ [0] ++ s.data.map charCase ++ [0]) : List Nat).length
        = 2 * s.data.length + 2 := by
    intro s
    simp [List.length_append]
    omega
  have hdrop := congrArg (List.drop (2 * a.data.length + 2)) h
  rw [key_reshape a, key_reshape b] at hdrop
  rw [show 2 * a.data.length + 2 = ((a.data.map charPrimary ++ [0] ++ a.data.map charCase ++ [0]) : List Nat).length from (hpre a).symm] at hdrop
  rw [List.drop_left] at hdrop
  rw [show ((a.data.map charPrimary ++ [0] ++ a.data.map charCase ++ [0]) : List Nat).length = ((b.data.map charPrimary ++ [0] ++ b.data.map charCase ++ [0]) : List Nat).length from by rw [hpre a, hpre b, hdlen]] at hdrop
  rw [List.drop_left] at hdrop
  have hdata : a.data = b.data := List.map_injective_iff.mpr charToNat_injective hdrop
  cases a; cases b
  exact congrArg String.mk hdata

theorem localeLeB_total (a b : String) : localeLeB a b = true ∨ localeLeB b a = true :=
  listLeB_total _ _

theorem localeLeB_trans {a b c : String} (h1 : localeLeB a b = true)
    (h2 : localeLeB b c = true) : localeLeB a c = true :=
  listLeB_trans h1 h2

theorem localeLeB_antisymm {a b : String} (h1 : localeLeB a b = true)
    (h2 : localeLeB b a = true) : a = b :=
  localeKey_injective (listLeB_antisymm h1 h2)

instance : IsTotal MerkleNodeJSON nodeLe := ⟨fun a b => localeLeB_total a.path b.path⟩

instance : IsTrans MerkleNodeJSON nodeLe := ⟨fun _ _ _ => localeLeB_trans⟩

instance : IsTotal ChildRef refLe := ⟨fun a b => localeLeB_total a.path b.path⟩

instance : IsTrans ChildRef refLe := ⟨fun _ _ _ => localeLeB_trans⟩

/-- Two sorted lists that are permutations of each other and whose sort keys
are distinct are equal (the comparator compares only the key, so plain
antisymmetry is unavailable; key distinctness substitutes for it). -/
theorem eq_of_perm_of_sorted_key {α : Type} (key : α → String) {l₁ l₂ : List α}
    (hp : l₁.Perm l₂)
    (hs₁ : List.Sorted (fun a b => localeLeB (key a) (key b) = true) l₁)
    (hs₂ : List.Sorted (fun a b => localeLeB (key a) (key b) = true) l₂)
    (hnd : (l₁.map key).Nodup) : l₁ = l₂ := by
  induction l₁ generalizing l₂ with
  | nil => exact (List.Perm.nil_eq hp).symm ▸ rfl
  | cons x xs ih =>
    cases l₂ with
    | nil => exact absurd hp.symm (by simp)
    | cons y ys =>
      by_cases hxy : x = y
      · subst hxy
        have hp' := hp.cons_inv
        have hnd' : (xs.map key).Nodup := by
          simp only [List.map_cons, List.nodup_cons] at hnd
          exact hnd.2
        rw [ih hp' hs₁.of_cons hs₂.of_cons hnd']
      · exfalso
        have hxl2 : x ∈ y :: ys := hp.mem_iff.mp (by simp)
        have hxys : x ∈ ys := by
          rcases List.mem_cons.mp hxl2 with h | h
          · exact absurd h hxy
          · exact h
        have hyl1 : y ∈ x :: xs := hp.symm.mem_iff.mp (by simp)
        have hyxs : y ∈ xs := by
          rcases List.mem_cons.mp hyl1 with h | h
          · exact absurd h.symm hxy
          · exact h
        have h1 : localeLeB (key x) (key y) = true :=
          (List.sorted_cons.mp hs₁).1 y hyxs
        have h2 : localeLeB (key y) (key x) = true :=
          (List.sorted_cons.mp hs₂).1 x hxys
        have hk : key x = key y := localeLeB_antisymm h1 h2
        have hmem : key x ∈ xs.map key := by
          rw [hk]
          exact List.mem_map_of_mem key hyxs
        simp only [List.map_cons, List.nodup_cons] at hnd
        exact hnd.1 hmem

/-! ## C6 — the empty tree -/

/-- C6: `buildTreeFromFiles` applied to the empty file list returns a single
node with `nodeType` Directory, path `"root"`, an empty children array,
`isLeaf` false, size 0, and hash
`e3b0c44298fc1c149afbf4c8996fb92427ae41e4649b934ca495991b7852b855`
(the SHA-256 of the empty string). -/
theorem buildTreeFromFiles_empty (now : Nat) :
    buildTreeFromFiles [] now = some
      { hash := "e3b0c44298fc1c149afbf4c8996fb92427ae41e4649b934ca495991b7852b855"
        nodeType := .Directory
        path := "root"
        size := 0
        modifiedAt := now / 1000
        createdAt := now / 1000
        children := some []
        isLeaf := false } := by
  have h : hashContent "" = "e3b0c44298fc1c149afbf4c8996fb92427ae41e4649b934ca495991b7852b855" := by
    decide
  simp [buildTreeFromFiles, h]

/-! ## C10 — `ingestFolder` before initialization -/

/-- C10: for every folder URI, calling `ingestFolder` while the service is
uninitialized returns `undefined`, issues no HTTP request, fires no event,
and leaves the whole service state (in particular `currentProject` and
`currentMerkleTree`) unchanged. -/
theorem ingestFolder_uninitialized (st : LocalIngestion.ServiceState)
    (env : LocalIngestion.IngestFolderEnv) (uri : LocalIngestion.FolderURI) (now : Nat)
    (h : st.initialized = false) :
    LocalIngestion.ingestFolder st env uri now =
      { result := none, finalState := st, requests := [], events := [] } := by
  simp [LocalIngestion.ingestFolder, h]

/-- Witness for C10 at a concrete uninitialized state and environment. -/
theorem ingestFolder_uninitialized_witness :
    ({ initialized := false, backendUrl := "", authToken := "", currentProject := none,
       currentMerkleTree := none } : LocalIngestion.ServiceState).initialized = false ∧
    LocalIngestion.ingestFolder
      { initialized := false, backendUrl := "", authToken := "", currentProject := none,
        currentMerkleTree := none }
      { check := none, create := none,
        sync := ⟨[], .ok ⟨none, none, none⟩, .ok ⟨none, none, none, none⟩⟩,
        ingest := ⟨[], none, fun _ => .notOk ""⟩, poll := [] }
      ⟨"/w/p", "p"⟩ 0 =
      { result := none
        finalState := { initialized := false, backendUrl := "", authToken := "",
                        currentProject := none, currentMerkleTree := none }
        requests := [], events := [] } :=
  ⟨rfl, ingestFolder_uninitialized _ _ _ _ rfl⟩

/-! ## C2 — `hashDirectory` -/

/-- C2 counterexample: `hashDirectory` does **not** hash the concatenation in
the order the caller passed the children — on `[{hash:"22",path:"b"},
{hash:"11",path:"a"}]` it returns the hash of the **sorted** concatenation
`"11" ++ "a" ++ "22" ++ "b"`, not of `"22" ++ "b" ++ "11" ++ "a"`. -/
theorem hashDirectory_not_order_passed :
    hashDirectory [⟨"22", "b"⟩, ⟨"11", "a"⟩] ≠ hashContent ("22" ++ "b" ++ "11" ++ "a") ∧
    hashDirectory [⟨"22", "b"⟩, ⟨"11", "a"⟩] = hashContent ("11" ++ "a" ++ "22" ++ "b") := by
  constructor
  · decide
  · decide

/-- C2 (amended): `hashDirectory` first sorts a copy of the children
ascending by `path` (`localeCompare`) and returns the lowercase-hex SHA-256
of `hash ++ path` concatenated over the **sorted** children with no
separators or framing; consequently, for children with pairwise-distinct
paths the result is invariant under the order the caller passes. -/
theorem hashDirectory_sorts_then_hashes (children children' : List ChildRef)
    (hperm : children.Perm children') (hnd : (children.map (·.path)).Nodup) :
    hashDirectory children =
      hashContent (String.join ((List.insertionSort refLe children).map fun c => c.hash ++ c.path)) ∧
    List.Sorted refLe (List.insertionSort refLe children) ∧
    hashDirectory children = hashDirectory children' := by
  refine ⟨rfl, List.sorted_insertionSort refLe children, ?_⟩
  have hsorted_eq : List.insertionSort refLe children = List.insertionSort refLe children' := by
    refine eq_of_perm_of_sorted_key (fun c => c.path) ?_ ?_ ?_ ?_
    · exact ((List.perm_insertionSort refLe children).trans hperm).trans
        (List.perm_insertionSort refLe children').symm
    · exact List.sorted_insertionSort refLe children
    · exact List.sorted_insertionSort refLe children'
    · have hmapperm : ((List.insertionSort refLe children).map (·.path)).Perm
          (children.map (·.path)) := (List.perm_insertionSort refLe children).map _
      exact hmapperm.nodup_iff.mpr hnd
  unfold hashDirectory
  rw [hsorted_eq]

/-- Witness for C2 (amended) at a concrete pair of permuted child lists. -/
theorem hashDirectory_sorts_then_hashes_witness :
    ([⟨"22", "b"⟩, ⟨"11", "a"⟩] : List ChildRef).Perm [⟨"11", "a"⟩, ⟨"22", "b"⟩] ∧
    (([⟨"22", "b"⟩, ⟨"11", "a"⟩] : List ChildRef).map (·.path)).Nodup ∧
    (hashDirectory [⟨"22", "b"⟩, ⟨"11", "a"⟩] =
      hashContent (String.join ((List.insertionSort refLe
        [⟨"22", "b"⟩, ⟨"11", "a"⟩]).map fun c => c.hash ++ c.path)) ∧
     List.Sorted refLe (List.insertionSort refLe [⟨"22", "b"⟩, ⟨"11", "a"⟩]) ∧
     hashDirectory [⟨"22", "b"⟩, ⟨"11", "a"⟩] = hashDirectory [⟨"11", "a"⟩, ⟨"22", "b"⟩]) :=
  ⟨by decide, by decide,
    hashDirectory_sorts_then_hashes _ _ (by decide) (by decide)⟩

/-! ## C3 — `syncWithMerkle` with an empty `needsFiles` -/

section C3

open LocalIngestion

/-- C3 counterexample: a phase-1 response with `needsFiles: []` and
`summary.deleted = 2` makes `syncWithMerkle` finish without firing
**any** event — in particular no `onIngestionComplete` (the claim asserts
one is fired).  The phase-2 request is indeed not issued and the new tree
is adopted. -/
theorem syncWithMerkle_no_complete_event :
    (syncWithMerkle
      { initialized := true, backendUrl := "u", authToken := "t",
        currentProject := none, currentMerkleTree := none }
      { collected := [⟨"a.ts", 1, some "x"⟩],
        phase1 := .ok ⟨some [⟨"Deleted", "old.ts"⟩], some ⟨0, 0, 2, 2⟩, some []⟩,
        phase2 := .ok ⟨none, none, none, none⟩ }
      "p1" 1000).events = [] ∧
    ((syncWithMerkle
      { initialized := true, backendUrl := "u", authToken := "t",
        currentProject := none, currentMerkleTree := none }
      { collected := [⟨"a.ts", 1, some "x"⟩],
        phase1 := .ok ⟨some [⟨"Deleted", "old.ts"⟩], some ⟨0, 0, 2, 2⟩, some []⟩,
        phase2 := .ok ⟨none, none, none, none⟩ }
      "p1" 1000).events.filter IngestionEvent.isComplete).length = 0 := by
  constructor
  · decide
  · decide

/-- C3 (amended): whenever phase 1 of `syncWithMerkle` succeeds with an
empty or absent `needsFiles` (and the collected file list is non-empty and
the tree builds), the method issues no phase-2 request, fires **no** event
(in particular not `onIngestionComplete`), retains the newly built tree as
`currentMerkleTree`, and returns success with `filesProcessed = 0` and
`filesDeleted` taken from the reported summary. -/
theorem syncWithMerkle_empty_needsFiles (st : ServiceState) (env : SyncEnv)
    (projectId : String) (now : Nat)
    (hne : env.collected.length ≠ 0)
    (hbuild : (Insien.buildTreeFromFiles (syncFilesWithContent env.collected) now).isSome = true)
    (body : Phase1Body) (hp1 : env.phase1 = .ok body)
    (hneeds : body.needsFiles.getD [] = []) :
    syncWithMerkle st env projectId now =
      { result := { success := true, changes := body.changes, summary := body.summary,
                    filesProcessed := some 0,
                    filesDeleted := some ((body.summary.map (·.deleted)).getD 0),
                    error := none }
        requests := [.merkleSyncPhase1 projectId
          ((Insien.buildTreeFromFiles (syncFilesWithContent env.collected) now).get hbuild)]
        events := []
        finalTree := some
          ((Insien.buildTreeFromFiles (syncFilesWithContent env.collected) now).get hbuild) } := by
  obtain ⟨tree, ht⟩ := Option.isSome_iff_exists.mp hbuild
  simp only [syncWithMerkle, hne, if_false, ht, hp1, hneeds, if_true, Option.get_some]

/-- Witness for C3 (amended) at a concrete environment. -/
theorem syncWithMerkle_empty_needsFiles_witness :
    (({ collected := [⟨"a.ts", 1, some "x"⟩],
        phase1 := .ok ⟨some [⟨"Deleted", "old.ts"⟩], some ⟨0, 0, 2, 2⟩, some []⟩,
        phase2 := .ok ⟨none, none, none, none⟩ } : SyncEnv).collected.length ≠ 0) ∧
    (syncWithMerkle
      { initialized := true, backendUrl := "u", authToken := "t",
        currentProject := none, currentMerkleTree := none }
      { collected := [⟨"a.ts", 1, some "x"⟩],
        phase1 := .ok ⟨some [⟨"Deleted", "old.ts"⟩], some ⟨0, 0, 2, 2⟩, some []⟩,
        phase2 := .ok ⟨none, none, none, none⟩ }
      "p1" 1000).events = [] ∧
    (syncWithMerkle
      { initialized := true, backendUrl := "u", authToken := "t",
        currentProject := none, currentMerkleTree := none }
      { collected := [⟨"a.ts", 1, some "x"⟩],
        phase1 := .ok ⟨some [⟨"Deleted", "old.ts"⟩], some ⟨0, 0, 2, 2⟩, some []⟩,
        phase2 := .ok ⟨none, none, none, none⟩ }
      "p1" 1000).result.filesProcessed = some 0 := by
  refine ⟨by decide, ?_, ?_⟩
  · rw [syncWithMerkle_empty_needsFiles _ _ _ _ (by decide) (by decide) _ rfl (by decide)]
  · rw [syncWithMerkle_empty_needsFiles _ _ _ _ (by decide) (by decide) _ rfl (by decide)]

end C3

/-! ## C7 — batch failures during full ingestion -/

section C7

open LocalIngestion

/-- The batch loop posts each remaining index exactly once (in order) and
fires no `onIngestionError` when no reply throws. -/
theorem runBatches_no_throw (replies : Nat → BatchOutcome) (projectId : String)
    (filesWithContent : List FileInput) (totalBatches : Nat) (l : List Nat)
    (cur : Option LocalProjectInfo)
    (h : ∀ i ∈ l, (replies i).isThrow = false) :
    (runBatches replies projectId filesWithContent totalBatches l cur).1.filterMap
      Request.batchIndex = l ∧
    (runBatches replies projectId filesWithContent totalBatches l cur).2.1.filter
      IngestionEvent.isError = [] := by
  induction l generalizing cur with
  | nil => exact ⟨rfl, rfl⟩
  | cons i rest ih =>
    have hi := h i (List.mem_cons_self i rest)
    have hrest : ∀ j ∈ rest, (replies j).isThrow = false :=
      fun j hj => h j (List.mem_cons_of_mem i hj)
    cases hrep : replies i with
    | fetchThrow msg => rw [hrep] at hi; simp [BatchOutcome.isThrow] at hi
    | notOk statusText =>
      have := ih cur hrest
      simp only [runBatches, hrep]
      constructor
      · simpa [Request.batchIndex] using this.1
      · simpa using this.2
    | ok tp tc ic =>
      cases ic with
      | true =>
        have := ih (some (completedProject cur tp tc)) hrest
        simp only [runBatches, hrep]
        constructor
        · simpa [Request.batchIndex] using this.1
        · simpa [IngestionEvent.isError] using this.2
      | false =>
        have := ih cur hrest
        simp only [runBatches, hrep]
        constructor
        · simpa [Request.batchIndex] using this.1
        · simpa [IngestionEvent.isError] using this.2

/-- C7 (amended): during full ingestion, a batch POST answered with a
non-2xx response is only logged: **no** `onIngestionError` fires for it, the
batch is not retried, and the loop continues — every batch index `0 ≤ i <
totalBatches` is posted exactly once, in order.  (`onIngestionError` fires
only when a fetch throws, i.e. on a transport exception.)  Hypotheses: the
`/init` fetch does not throw, the tree builds, and no batch fetch throws —
non-2xx batch responses are unconstrained. -/
theorem startIngestion_nonOk_batch_no_error (st : ServiceState) (env : IngestEnv)
    (projectId : String) (now : Nat)
    (hinit : env.initThrow = none)
    (hbuild : (Insien.buildTreeFromFiles (ingestFilesWithContent env.collected now) now).isSome = true)
    (hnothrow : ∀ i, (env.batches i).isThrow = false) :
    (startIngestion st env projectId now).events.filter IngestionEvent.isError = [] ∧
    (startIngestion st env projectId now).requests.filterMap Request.batchIndex =
      List.range (((ingestFilesWithContent env.collected now).length + 19) / 20) := by
  by_cases hc : env.collected.length = 0
  · have hcoll : env.collected = [] := List.length_eq_zero.mp hc
    simp [startIngestion, hc, hcoll, ingestFilesWithContent]
  · by_cases hf : (ingestFilesWithContent env.collected now).length = 0
    · have hfwc : ingestFilesWithContent env.collected now = [] := List.length_eq_zero.mp hf
      simp [startIngestion, hc, hf, hfwc]
    · obtain ⟨tree, ht⟩ := Option.isSome_iff_exists.mp hbuild
      have hrb := runBatches_no_throw env.batches projectId
        (ingestFilesWithContent env.collected now)
        (((ingestFilesWithContent env.collected now).length + 19) / 20)
        (List.range (((ingestFilesWithContent env.collected now).length + 19) / 20))
        st.currentProject (fun i _ => hnothrow i)
      simp only [startIngestion, hc, if_false, hf, ht, hinit]
      constructor
      · simpa using hrb.2
      · simpa [Request.batchIndex] using hrb.1

/-- C7 counterexample: a single-batch ingestion whose batch POST returns a
non-2xx response fires **no** event at all — in particular no
`onIngestionError` (the claim asserts one is fired) — and posts the batch
exactly once. -/
theorem startIngestion_nonOk_batch_silent :
    (startIngestion
      { initialized := true, backendUrl := "u", authToken := "t",
        currentProject := some ⟨"p1", "h", "w", "/w", .pending, 0, 0, 0, none⟩,
        currentMerkleTree := none }
      { collected := [⟨"a.ts", 1, some "x"⟩], initThrow := none,
        batches := fun _ => .notOk "Internal Server Error" }
      "p1" 1000).events = [] ∧
    ((startIngestion
      { initialized := true, backendUrl := "u", authToken := "t",
        currentProject := some ⟨"p1", "h", "w", "/w", .pending, 0, 0, 0, none⟩,
        currentMerkleTree := none }
      { collected := [⟨"a.ts", 1, some "x"⟩], initThrow := none,
        batches := fun _ => .notOk "Internal Server Error" }
      "p1" 1000).requests.filterMap Request.batchIndex) = [0] := by
  constructor
  · decide
  · decide

/-- Witness for C7 (amended) at a concrete single-batch environment. -/
theorem startIngestion_nonOk_batch_no_error_witness :
    (({ collected := [⟨"a.ts", 1, some "x"⟩], initThrow := none,
        batches := fun _ => .notOk "Internal Server Error" } : IngestEnv).initThrow = none) ∧
    ((startIngestion
      { initialized := true, backendUrl := "u", authToken := "t",
        currentProject := some ⟨"p1", "h", "w", "/w", .pending, 0, 0, 0, none⟩,
        currentMerkleTree := none }
      { collected := [⟨"a.ts", 1, some "x"⟩], initThrow := none,
        batches := fun _ => .notOk "Internal Server Error" }
      "p1" 1000).events.filter IngestionEvent.isError = [] ∧
    (startIngestion
      { initialized := true, backendUrl := "u", authToken := "t",
        currentProject := some ⟨"p1", "h", "w", "/w", .pending, 0, 0, 0, none⟩,
        currentMerkleTree := none }
      { collected := [⟨"a.ts", 1, some "x"⟩], initThrow := none,
        batches := fun _ => .notOk "Internal Server Error" }
      "p1" 1000).requests.filterMap Request.batchIndex =
      List.range (((ingestFilesWithContent
        ([⟨"a.ts", 1, some "x"⟩] : List CollectedFile) 1000).length + 19) / 20)) :=
  ⟨rfl, startIngestion_nonOk_batch_no_error _ _ _ _ rfl (by decide) (fun _ => rfl)⟩

end C7

/-! ## C8 — availability edges in the chat gateway -/

section C8

open LocalIngestion BackendChat

/-- On `onProjectChanged`-only notification sequences the fired
`onAvailabilityChanged` trace strictly alternates starting from the initial
availability, and the final availability is the last fired value (or the
initial one when nothing fired). -/
theorem chatRun_projectChanged_chain (seq : List ChatNotification) (avail : Bool)
    (hpc : ∀ n ∈ seq, n.isProjectChangedNotif = true) :
    List.Chain (· ≠ ·) avail (chatRun avail seq).2 ∧
    (chatRun avail seq).1 = (chatRun avail seq).2.getLastD avail := by
  induction seq generalizing avail with
  | nil => exact ⟨List.Chain.nil, rfl⟩
  | cons n rest ih =>
    cases n with
    | ingestionComplete =>
      have := hpc _ (List.mem_cons_self _ _)
      simp [ChatNotification.isProjectChangedNotif] at this
    | projectChanged p =>
      have hrest : ∀ m ∈ rest, m.isProjectChangedNotif = true :=
        fun m hm => hpc m (List.mem_cons_of_mem _ hm)
      by_cases hna : availabilityOf p = avail
      · have := ih (availabilityOf p) hrest
        simp only [chatRun, chatStep, hna]
        simpa [hna] using this
      · have ht := ih (availabilityOf p) hrest
        have hcond : availabilityOf p ≠ avail := hna
        constructor
        · simp only [chatRun, chatStep, if_pos hcond, List.cons_append, List.nil_append]
          exact List.Chain.cons (Ne.symm hna) ht.1
        · simp only [chatRun, chatStep, if_pos hcond, List.cons_append, List.nil_append,
            List.getLastD_cons]
          exact ht.2

/-- C8 (amended): the `onProjectChanged` listener is edge-triggered — over
any sequence of project-change notifications the fired availability values
strictly alternate, never repeating the last reported value — but the
`onIngestionComplete` listener is **not**: every `onIngestionComplete`
notification fires `onAvailabilityChanged(true)` unconditionally, even when
availability was already reported `true`. -/
theorem chat_availability_edges :
    (∀ (avail : Bool) (seq : List ChatNotification),
      (∀ n ∈ seq, n.isProjectChangedNotif = true) →
      List.Chain (· ≠ ·) avail (chatRun avail seq).2) ∧
    (∀ (avail : Bool) (seq : List ChatNotification),
      (chatRun avail (seq ++ [.ingestionComplete])).2 = (chatRun avail seq).2 ++ [true]) := by
  constructor
  · intro avail seq hpc
    exact (chatRun_projectChanged_chain seq avail hpc).1
  · intro avail seq
    induction seq generalizing avail with
    | nil => rfl
    | cons n rest ih =>
      simp only [List.cons_append, chatRun, List.append_eq]
      rw [ih]
      simp [List.append_assoc]

/-- C8 counterexample: after a completed project is adopted (availability
reported `true`), a subsequent `onIngestionComplete` fires
`onAvailabilityChanged(true)` again — the trace `[true, true]` repeats the
last reported value, which the claim forbids. -/
theorem chat_fires_equal_value :
    (chatRun false
      [.projectChanged (some ⟨"p1", "h", "w", "/w", .completed, 1, 1, 1, none⟩),
       .ingestionComplete]).2 = [true, true] ∧
    ¬ List.Chain' (· ≠ ·)
      (chatRun false
        [.projectChanged (some ⟨"p1", "h", "w", "/w", .completed, 1, 1, 1, none⟩),
         .ingestionComplete]).2 := by
  have h : (chatRun false
      [.projectChanged (some ⟨"p1", "h", "w", "/w", .completed, 1, 1, 1, none⟩),
       .ingestionComplete]).2 = [true, true] := by decide
  refine ⟨h, ?_⟩
  rw [h]
  simp

/-- Witness for C8 (amended) at concrete sequences. -/
theorem chat_availability_edges_witness :
    ((∀ n ∈ ([.projectChanged (some ⟨"p1", "h", "w", "/w", .completed, 1, 1, 1, none⟩),
              .projectChanged none] : List ChatNotification), n.isProjectChangedNotif = true) ∧
     List.Chain (· ≠ ·) false
       (chatRun false
         [.projectChanged (some ⟨"p1", "h", "w", "/w", .completed, 1, 1, 1, none⟩),
          .projectChanged none]).2) ∧
    (chatRun false
      ([.projectChanged (some ⟨"p1", "h", "w", "/w", .completed, 1, 1, 1, none⟩)] ++
        [.ingestionComplete])).2 =
      (chatRun false
        [.projectChanged (some ⟨"p1", "h", "w", "/w", .completed, 1, 1, 1, none⟩)]).2 ++
        [true] :=
  ⟨⟨by decide, chat_availability_edges.1 false _ (by decide)⟩,
    chat_availability_edges.2 false _⟩

end C8

/-! ## C9 — error events in `sendMessageStream` -/

section C9

open BackendChat

theorem splitOnCharL_ne_nil (sep : Char) (l : List Char) : splitOnCharL sep l ≠ [] := by
  cases l with
  | nil => simp [splitOnCharL]
  | cons c cs =>
    simp only [splitOnCharL]
    rcases h : splitOnCharL sep cs with _ | ⟨p, ps⟩
    · simp
    · by_cases hc : c = sep <;> simp [hc]

/-- A string without the separator splits into a single part. -/
theorem splitOnCharL_of_not_mem {sep : Char} {l : List Char} (h : sep ∉ l) :
    splitOnCharL sep l = [l] := by
  induction l with
  | nil => rfl
  | cons c cs ih =>
    have hc : c ≠ sep := fun hcc => h (hcc ▸ List.mem_cons_self c cs)
    have hcs : sep ∉ cs := fun hm => h (List.mem_cons_of_mem c hm)
    simp only [splitOnCharL, ih hcs]
    simp [fun hcc => hc hcc]

/-- The trailing part of a split contains no separator. -/
theorem not_mem_getLastD_splitOnCharL (sep : Char) (l : List Char) :
    sep ∉ (splitOnCharL sep l).getLastD [] := by
  induction l with
  | nil => simp [splitOnCharL]
  | cons c cs ih =>
    simp only [splitOnCharL]
    rcases h : splitOnCharL sep cs with _ | ⟨p, ps⟩
    · exact absurd h (splitOnCharL_ne_nil sep cs)
    · rw [h] at ih
      by_cases hc : c = sep
      · simpa [hc, List.getLastD_cons] using ih
      · cases ps with
        | nil =>
          simp only [hc, if_false, List.getLastD_cons, List.getLastD_nil] at ih ⊢
          intro hmem
          rcases List.mem_cons.mp hmem with h' | h'
          · exact hc h'.symm
          · exact ih h'
        | cons r rs =>
          simpa [hc, List.getLastD_cons] using ih

/-- Unfolding step: a leading separator starts a fresh empty fragment. -/
theorem splitOnCharL_cons_self (sep : Char) (cs : List Char) :
    splitOnCharL sep (sep :: cs) = [] :: splitOnCharL sep cs := by
  simp only [splitOnCharL]
  rcases h : splitOnCharL sep cs with _ | ⟨p, ps⟩
  · exact absurd h (splitOnCharL_ne_nil sep cs)
  · simp

/-- Unfolding step: a non-separator character extends the first fragment. -/
theorem splitOnCharL_cons_ne (sep c : Char) (cs : List Char) (hc : c ≠ sep) :
    splitOnCharL sep (c :: cs) = (splitOnCharL sep cs).modifyHead (c :: ·) := by
  simp only [splitOnCharL]
  rcases h : splitOnCharL sep cs with _ | ⟨p, ps⟩
  · exact absurd h (splitOnCharL_ne_nil sep cs)
  · simp [hc]

theorem modifyHead_comp {α : Type} (l : List α) (f g : α → α) :
    (l.modifyHead f).modifyHead g = l.modifyHead (fun x => g (f x)) := by
  cases l <;> simp

/-- Splitting an appended list: the left part's last fragment fuses with the
right part's first fragment. -/
theorem splitOnCharL_append (sep : Char) (a b : List Char) :
    splitOnCharL sep (a ++ b) =
      (splitOnCharL sep a).dropLast ++
        (splitOnCharL sep b).modifyHead (((splitOnCharL sep a).getLastD []) ++ ·) := by
  induction a with
  | nil =>
    simp only [List.nil_append, splitOnCharL, List.dropLast_single, List.getLastD_cons, List.getLastD_nil]
    rcases h : splitOnCharL sep b with _ | ⟨q, qs⟩
    · exact absurd h (splitOnCharL_ne_nil sep b)
    · simp
  | cons c cs ih =>
    rcases h : splitOnCharL sep cs with _ | ⟨p, ps⟩
    · exact absurd h (splitOnCharL_ne_nil sep cs)
    · by_cases hc : c = sep
      · subst hc
        rw [List.cons_append, splitOnCharL_cons_self, splitOnCharL_cons_self, ih, h]
        cases ps with
        | nil => simp [List.getLastD_cons]
        | cons r rs => simp [List.getLastD_cons]
      · rw [List.cons_append, splitOnCharL_cons_ne sep c _ hc, splitOnCharL_cons_ne sep c _ hc,
          ih, h]
        cases ps with
        | nil =>
          simp only [List.dropLast_single, List.nil_append, List.getLastD_cons, List.getLastD_nil,
            List.modifyHead, List.dropLast_cons_of_ne_nil, modifyHead_comp]
          rcases hb : splitOnCharL sep b with _ | ⟨q, qs⟩
          · exact absurd hb (splitOnCharL_ne_nil sep b)
          · simp [List.getLastD_cons]
        | cons r rs =>
          simp [List.getLastD_cons]

theorem modifyHead_ne_nil {α : Type} {l : List α} (f : α → α) (h : l ≠ []) :
    l.modifyHead f ≠ [] := by
  cases l
  · exact absurd rfl h
  · simp

/-- The rolling-buffer reader is equivalent to splitting the whole
concatenated stream on newlines and dropping the trailing partial line,
provided the carried buffer holds no newline (which the loop maintains). -/
theorem processChunks_eq_global {α : Type} (parse : List Char → Option α)
    (chunks : List (List Char)) (buffer : List Char) (hb : '\n' ∉ buffer) :
    processChunks parse buffer chunks =
      processSSELines parse ((splitOnCharL '\n' (buffer ++ chunks.flatten)).dropLast) := by
  induction chunks generalizing buffer with
  | nil =>
    simp only [processChunks, List.flatten_nil, List.append_nil,
      splitOnCharL_of_not_mem hb, List.dropLast_single]
    rfl
  | cons c rest ih =>
    have hb' : '\n' ∉ (splitOnCharL '\n' (buffer ++ c)).getLastD [] :=
      not_mem_getLastD_splitOnCharL '\n' (buffer ++ c)
    have hlast : ((splitOnCharL '\n' (buffer ++ c)).getLast?).getD ([] : List Char) =
        (splitOnCharL '\n' (buffer ++ c)).getLastD [] :=
      (List.getLastD_eq_getLast? _ _).symm
    simp only [processChunks]
    rw [hlast, ih _ hb']
    rw [show buffer ++ (c :: rest).flatten = (buffer ++ c) ++ rest.flatten by
      simp [List.flatten_cons, List.append_assoc]]
    rw [splitOnCharL_append '\n' (buffer ++ c) rest.flatten]
    have hmh : (splitOnCharL '\n' rest.flatten).modifyHead
        (((splitOnCharL '\n' (buffer ++ c)).getLastD []) ++ ·) ≠ [] :=
      modifyHead_ne_nil _ (splitOnCharL_ne_nil _ _)
    rw [List.dropLast_append_of_ne_nil _ hmh]
    unfold processSSELines
    rw [List.filterMap_append]
    congr 1
    rw [splitOnCharL_append '\n' ((splitOnCharL '\n' (buffer ++ c)).getLastD [])
      rest.flatten]
    rw [splitOnCharL_of_not_mem hb']
    simp [List.getLastD_cons, List.getLastD_nil]

/-- The reader loop itself never fires an error event: every fired event is
a parsed payload. -/
theorem processChunks_not_error {α : Type} (parse : List Char → Option α)
    (chunks : List (List Char)) (buffer : List Char) :
    ∀ e ∈ processChunks parse buffer chunks, e.isError = false := by
  induction chunks generalizing buffer with
  | nil => intro e he; simp [processChunks] at he
  | cons c rest ih =>
    intro e he
    simp only [processChunks, List.mem_append] at he
    rcases he with he | he
    · simp only [processSSELines, List.mem_filterMap] at he
      obtain ⟨line, _, hline⟩ := he
      split at hline
      · obtain ⟨v, _, hv⟩ := Option.map_eq_some'.mp hline
        rw [← hv]
        rfl
      · exact absurd hline (by simp)
    · exact ih _ e he

/-- C9 (amended): the unavailable-guard, a rejected fetch, a non-2xx
response, a missing body, and a reader exception each yield exactly one
`error` event; but a `data:` line whose remainder fails to parse as JSON is
**silently ignored** — the non-error events are exactly the successfully
parsed `data:` lines of the newline-split concatenated stream (each fired
once, in order). -/
theorem sendMessageStream_spec {α : Type} (parse : List Char → Option α)
    (isAvailable : Bool) (outcome : StreamOutcome) :
    ((sendMessageStream parse isAvailable outcome).filter SSEFired.isError).length =
      (if isAvailable then (if outcome.transportFails then 1 else 0) else 1) ∧
    (∀ (chunks : List (List Char)) (readThrow : Option String),
      isAvailable = true → outcome = .okBody chunks readThrow →
      (sendMessageStream parse isAvailable outcome).filter (fun e => !SSEFired.isError e) =
        processSSELines parse ((splitOnCharL '\n' chunks.flatten).dropLast)) := by
  constructor
  · cases isAvailable with
    | false => rfl
    | true =>
      cases outcome with
      | fetchThrow msg => rfl
      | notOk statusText => rfl
      | noBody => rfl
      | okBody chunks readThrow =>
        have hfil : (processChunks parse [] chunks).filter SSEFired.isError = [] :=
          List.filter_eq_nil_iff.mpr (by
            intro e he
            simp [processChunks_not_error parse chunks [] e he])
        cases readThrow with
        | none =>
          simp [sendMessageStream, StreamOutcome.transportFails, List.filter_append, hfil]
        | some msg =>
          simp [sendMessageStream, StreamOutcome.transportFails, List.filter_append, hfil,
            SSEFired.isError]
  · intro chunks readThrow hav hout
    subst hav hout
    have hkeep : (processChunks parse [] chunks).filter (fun e => !SSEFired.isError e) =
        processChunks parse [] chunks :=
      List.filter_eq_self.mpr (by
        intro e he
        simp [processChunks_not_error parse chunks [] e he])
    have hglobal := processChunks_eq_global parse chunks [] (by simp)
    cases readThrow with
    | none =>
      simp only [sendMessageStream, Bool.not_true, Bool.false_eq_true, if_false,
        List.append_nil]
      rw [hkeep, hglobal]
      simp
    | some msg =>
      simp only [sendMessageStream, Bool.not_true, Bool.false_eq_true, if_false,
        List.filter_append, hkeep]
      rw [hglobal]
      simp [SSEFired.isError]

/-- C9 counterexample: with availability granted and a healthy transport, the
single SSE line `data: notjson` — whose remainder is not valid JSON — fires
**no** event at all: the parse failure is silently swallowed instead of
yielding an `error` event as the claim asserts. -/
theorem sendMessageStream_malformed_line_silent :
    sendMessageStream jsonParseModel true (.okBody ["data: notjson\n".data] none) = [] ∧
    dataMarker.isPrefixOf ("data: notjson".data) = true ∧
    jsonParses ("notjson".data) = false := by
  refine ⟨?_, ?_, ?_⟩
  · decide
  · decide
  · decide

/-- Witness for C9 (amended) at a concrete well-formed stream. -/
theorem sendMessageStream_spec_witness :
    ((sendMessageStream jsonParseModel true
        (.okBody ["data: true\n".data] none)).filter SSEFired.isError).length =
      (if true then
        (if (StreamOutcome.okBody ["data: true\n".data] none).transportFails then 1 else 0)
       else 1) ∧
    (sendMessageStream jsonParseModel true
        (.okBody ["data: true\n".data] none)).filter (fun e => !SSEFired.isError e) =
      processSSELines jsonParseModel
        ((splitOnCharL '\n' ([("data: true\n".data)] : List (List Char)).flatten).dropLast) :=
  ⟨(sendMessageStream_spec jsonParseModel true (.okBody ["data: true\n".data] none)).1,
   (sendMessageStream_spec jsonParseModel true (.okBody ["data: true\n".data] none)).2
     _ _ rfl rfl⟩

end C9

/-! ## C1 — child ordering in the built tree -/

section C1

theorem localeSortedAll_iff (l : List MerkleNodeJSON) :
    localeSortedAll l = true ↔ ∀ x ∈ l, localeSortedTree x = true := by
  induction l with
  | nil => simp [localeSortedAll]
  | cons c rest ih =>
    simp only [localeSortedAll, Bool.and_eq_true, ih, List.mem_cons]
    constructor
    · rintro ⟨h1, h2⟩ x (rfl | hx)
      · exact h1
      · exact h2 x hx
    · intro h
      exact ⟨h c (Or.inl rfl), fun x hx => h x (Or.inr hx)⟩

theorem pairwiseLocaleLe_of_sorted {l : List MerkleNodeJSON}
    (h : List.Sorted nodeLe l) : pairwiseLocaleLe l = true := by
  induction l with
  | nil => rfl
  | cons a rest ih =>
    cases rest with
    | nil => rfl
    | cons b rest' =>
      have hs := List.sorted_cons.mp h
      simp only [pairwiseLocaleLe, Bool.and_eq_true]
      exact ⟨hs.1 b (List.mem_cons_self b rest'), ih hs.2⟩

mutual

theorem localeSortedTree_build (n : NestedNode) (p : String) (now : Nat) :
    localeSortedTree (buildTreeFromNested n p now) = true := by
  cases n with
  | file content size lastModified => rfl
  | dir ch =>
    show localeSortedTree (buildTreeFromNested (.dir ch) p now) = true
    rw [buildTreeFromNested]
    simp only [localeSortedTree, Bool.and_eq_true]
    refine ⟨pairwiseLocaleLe_of_sorted (List.sorted_insertionSort nodeLe _), ?_⟩
    rw [localeSortedAll_iff]
    intro x hx
    have hx' : x ∈ buildChildList ch p now :=
      ((List.perm_insertionSort nodeLe _).mem_iff).mp hx
    exact localeSortedTree_buildList ch p now x hx'

theorem localeSortedTree_buildList (entries : List (String × NestedNode)) (p : String)
    (now : Nat) : ∀ x ∈ buildChildList entries p now, localeSortedTree x = true := by
  cases entries with
  | nil => intro x hx; simp [buildChildList] at hx
  | cons e rest =>
    intro x hx
    rw [buildChildList] at hx
    rcases List.mem_cons.mp hx with rfl | hx'
    · exact localeSortedTree_build e.2 (childPathOf p e.1) now
    · exact localeSortedTree_buildList rest p now x hx'

end

/-- C1 (amended): every directory node in the tree returned by
`buildTreeFromFiles` has its children array sorted ascending by `path` under
the **`localeCompare` collation** (the comparator the code passes to
`sort`), not under UTF-16 code-unit comparison: the collation orders
letters case-insensitively, so e.g. `"a.ts"` sorts before `"B.ts"` while
code units order `"B.ts"` first. -/
theorem buildTree_children_locale_sorted (files : List FileInput) (now : Nat)
    (t : MerkleNodeJSON) (h : buildTreeFromFiles files now = some t) :
    localeSortedTree t = true := by
  unfold buildTreeFromFiles at h
  by_cases hlen : files.length = 0
  · rw [if_pos hlen] at h
    obtain rfl : _ = t := Option.some.injEq .. ▸ h
    rfl
  · rw [if_neg hlen] at h
    rcases hb : buildNestedStructure files now with _ | root
    · rw [hb] at h; simp at h
    · rw [hb] at h
      simp only [Option.map_some'] at h
      obtain rfl : _ = t := Option.some.injEq .. ▸ h
      exact localeSortedTree_build root "root" now

/-- C1 counterexample: on input files `B.ts` and `a.ts` the root's children
come out as `["a.ts", "B.ts"]`, and this adjacent pair violates the claimed
UTF-16 code-unit ascending order (`"a.ts" < "B.ts"` is false on code units,
since `B` is 0x42 and `a` is 0x61). -/
theorem buildTree_children_not_utf16_sorted :
    ((buildTreeFromFiles [⟨"B.ts", "x", none, none⟩, ⟨"a.ts", "y", none, none⟩] 1000).map
      (fun t => (t.children.getD []).map (·.path))) = some ["a.ts", "B.ts"] ∧
    utf16LtB "a.ts" "B.ts" = false := by
  constructor
  · decide
  · decide

/-- Witness for C1 (amended) at a concrete input. -/
theorem buildTree_children_locale_sorted_witness :
    localeSortedTree
      ((buildTreeFromFiles [⟨"B.ts", "x", none, none⟩, ⟨"a.ts", "y", none, none⟩] 1000).getD
        ⟨"", .File, "", 0, 0, 0, none, true⟩) = true :=
  buildTree_children_locale_sorted
    [⟨"B.ts", "x", none, none⟩, ⟨"a.ts", "y", none, none⟩] 1000
    ((buildTreeFromFiles [⟨"B.ts", "x", none, none⟩, ⟨"a.ts", "y", none, none⟩] 1000).getD
      ⟨"", .File, "", 0, 0, 0, none, true⟩) rfl

end C1

/-! ## C4 — first sync emits one `Added` per file

### Stage 1: the `Added` changes of a built tree are its leaves -/

section C4

/-- The change record `collectAddedRecursive` pushes for a leaf. -/
def mkAdded (p : String) (content : String) : FileChange :=
  { changeType := .Added, path := p, oldHash := none, newHash := some (hashContent content) }

theorem collectAddedList_eq_flatMap (l : List MerkleNodeJSON) :
    collectAddedList l = l.flatMap collectAddedRecursive := by
  induction l with
  | nil => rfl
  | cons c rest ih => rw [collectAddedList, ih, List.flatMap_cons]

mutual

theorem collectAdded_build (n : NestedNode) (p : String) (now : Nat) :
    (collectAddedRecursive (buildTreeFromNested n p now)).Perm
      ((leafComps n).map fun e => mkAdded (joinPath p e.1) e.2) := by
  cases n with
  | file content size lastModified =>
    exact List.Perm.refl _
  | dir ch =>
    rw [buildTreeFromNested]
    show (collectAddedRecursive ⟨_, _, _, _, _, _,
      some (List.insertionSort nodeLe (buildChildList ch p now)), false⟩).Perm _
    rw [collectAddedRecursive]
    simp only [Bool.false_eq_true, if_false]
    rw [collectAddedList_eq_flatMap]
    exact (List.Perm.flatMap_right collectAddedRecursive
      (List.perm_insertionSort nodeLe (buildChildList ch p now))).trans
      (collectAdded_buildList ch p now)

theorem collectAdded_buildList (entries : List (String × NestedNode)) (p : String) (now : Nat) :
    ((buildChildList entries p now).flatMap collectAddedRecursive).Perm
      ((leafCompsList entries).map fun e => mkAdded (joinPath p e.1) e.2) := by
  cases entries with
  | nil => exact List.Perm.refl _
  | cons e rest =>
    obtain ⟨name, c⟩ := e
    rw [buildChildList, List.flatMap_cons, leafCompsList, List.map_append]
    refine List.Perm.append ?_ (collectAdded_buildList rest p now)
    have h1 := collectAdded_build c (childPathOf p name) now
    have h2 : ((leafComps c).map (fun e => (name :: e.1, e.2))).map
        (fun e => mkAdded (joinPath p e.1) e.2) =
        (leafComps c).map (fun e => mkAdded (joinPath (childPathOf p name) e.1) e.2) := by
      rw [List.map_map]
      rfl
    rw [h2]
    exact h1

end

/-! ### Stage 2: inserting a compatible file adds exactly its leaf -/

theorem leafCompsList_append (l₁ l₂ : List (String × NestedNode)) :
    leafCompsList (l₁ ++ l₂) = leafCompsList l₁ ++ leafCompsList l₂ := by
  induction l₁ with
  | nil => rfl
  | cons e rest ih =>
    obtain ⟨name, c⟩ := e
    rw [List.cons_append, leafCompsList, ih, leafCompsList, List.append_assoc]

theorem upsertChild_of_lookup_none {k : String} (v : NestedNode) :
    ∀ {ch}, lookupChild k ch = none → upsertChild k v ch = ch ++ [(k, v)] := by
  intro ch
  induction ch with
  | nil => intro _; rfl
  | cons e rest ih =>
    obtain ⟨k', v'⟩ := e
    intro h
    rw [lookupChild] at h
    by_cases hk : k' = k
    · rw [if_pos hk] at h; exact absurd h (by simp)
    · rw [if_neg hk] at h
      rw [upsertChild, if_neg hk, ih h, List.cons_append]

theorem lookupChild_some_split {k : String} {n0 : NestedNode} :
    ∀ {ch}, lookupChild k ch = some n0 →
    ∃ pre post, ch = pre ++ (k, n0) :: post ∧
      ∀ v, upsertChild k v ch = pre ++ (k, v) :: post := by
  intro ch
  induction ch with
  | nil => intro h; exact absurd h (by simp [lookupChild])
  | cons e rest ih =>
    obtain ⟨k', v'⟩ := e
    intro h
    rw [lookupChild] at h
    by_cases hk : k' = k
    · rw [if_pos hk] at h
      obtain rfl : v' = n0 := Option.some.injEq .. ▸ h
      subst hk
      exact ⟨[], rest, rfl, fun v => by rw [upsertChild, if_pos rfl]; rfl⟩
    · rw [if_neg hk] at h
      obtain ⟨pre, post, hch, hup⟩ := ih h
      refine ⟨(k', v') :: pre, post, by rw [hch, List.cons_append], fun v => ?_⟩
      rw [upsertChild, if_neg hk, hup v, List.cons_append]

theorem perm_middle_snoc {α : Type} (A P : List α) (x : α) :
    (A ++ (x :: P)).Perm ((A ++ P) ++ [x]) := by
  refine (List.perm_middle).trans ?_
  have h := @List.perm_middle α x (A ++ P) ([] : List α)
  simpa using h.symm

theorem perm_append3_snoc {α : Type} (A M P : List α) (x : α) :
    (A ++ (M ++ [x]) ++ P).Perm ((A ++ M ++ P) ++ [x]) := by
  have h1 : A ++ (M ++ [x]) ++ P = (A ++ M) ++ (x :: P) := by
    simp [List.append_assoc]
  have h2 : (A ++ M) ++ (x :: P) = (A ++ M) ++ x :: P := rfl
  rw [h1, h2]
  refine (List.perm_middle).trans ?_
  have h3 : ((A ++ M ++ P) ++ [x]).Perm (x :: (A ++ M ++ P)) := by
    have := @List.perm_middle α x (A ++ M ++ P) ([] : List α)
    simpa using this
  refine (h3.symm).trans ?_
  simp [List.append_assoc]

/-- Inserting a file whose component path neither extends nor is extended by
(nor equals) any existing leaf path succeeds and adds exactly that leaf. -/
theorem insertParts_leaves (f : FileInput) (now : Nat) :
    ∀ (parts : List String) (ch : List (String × NestedNode)), parts ≠ [] →
    (∀ e ∈ leafCompsList ch, initSegB parts e.1 = false ∧ initSegB e.1 parts = false) →
    ∃ ch', insertParts f now ch parts = some ch' ∧
      (leafCompsList ch').Perm (leafCompsList ch ++ [(parts, f.content)]) := by
  intro parts
  induction parts with
  | nil => intro ch h; exact absurd rfl h
  | cons part rest ih =>
    intro ch _ hconf
    cases rest with
    | nil =>
      -- terminal component: place the file
      rcases hl : lookupChild part ch with _ | n0
      · refine ⟨_, rfl, ?_⟩
        rw [upsertChild_of_lookup_none _ hl, leafCompsList_append]
        rw [leafCompsList, leafCompsList, leafComps]
        exact List.Perm.refl _
      · obtain ⟨pre, post, hch, hup⟩ := lookupChild_some_split hl
        cases n0 with
        | file c0 s0 m0 =>
          exfalso
          have hmem : ([part], c0) ∈ leafCompsList ch := by
            rw [hch, leafCompsList_append, leafCompsList, leafComps]
            simp
          have := (hconf _ hmem).1
          simp [initSegB] at this
        | dir ch0 =>
          rcases hl0 : leafCompsList ch0 with _ | ⟨e0, es0⟩
          · -- an empty directory is silently replaced by the file
            refine ⟨_, rfl, ?_⟩
            rw [hup, hch, leafCompsList_append, leafCompsList_append,
              leafCompsList, leafCompsList, leafComps, leafComps, hl0]
            simp only [List.map_nil, List.nil_append, List.map_cons, List.map_nil]
            exact perm_middle_snoc _ _ _
          · exfalso
            have hmem : (part :: e0.1, e0.2) ∈ leafCompsList ch := by
              rw [hch, leafCompsList_append, leafCompsList, leafComps, hl0]
              simp
            have := (hconf _ hmem).1
            simp [initSegB] at this
    | cons p2 rest' =>
      rcases hl : lookupChild part ch with _ | n0
      · -- no entry: build the whole chain in a fresh directory
        obtain ⟨ch'', hins, hperm⟩ := ih [] (by simp) (by simp [leafCompsList])
        have heq : insertParts f now ch (part :: p2 :: rest') =
            some (upsertChild part (.dir ch'') ch) := by
          simp only [insertParts, hl, hins, Option.map_some']
        refine ⟨_, heq, ?_⟩
        rw [upsertChild_of_lookup_none _ hl, leafCompsList_append, leafCompsList,
          leafCompsList, leafComps, List.append_nil]
        have := hperm.map (fun e => ((part :: e.1, e.2) : List String × String))
        simp only [leafCompsList, List.map_append, List.map_cons, List.map_nil] at this
        exact List.Perm.append_left _ this
      · cases n0 with
        | file c0 s0 m0 =>
          -- the walk steps into a file node: the source throws, excluded here
          exfalso
          obtain ⟨pre, post, hch, _⟩ := lookupChild_some_split hl
          have hmem : ([part], c0) ∈ leafCompsList ch := by
            rw [hch, leafCompsList_append, leafCompsList, leafComps]
            simp
          have := (hconf _ hmem).2
          simp [initSegB] at this
        | dir ch0 =>
          obtain ⟨pre, post, hch, hup⟩ := lookupChild_some_split hl
          have hsub : ∀ e ∈ leafCompsList ch0,
              initSegB (p2 :: rest') e.1 = false ∧ initSegB e.1 (p2 :: rest') = false := by
            intro e he
            have hmem : (part :: e.1, e.2) ∈ leafCompsList ch := by
              rw [hch, leafCompsList_append, leafCompsList, leafComps]
              refine List.mem_append.mpr (Or.inr (List.mem_append.mpr (Or.inl ?_)))
              exact List.mem_map.mpr ⟨e, he, rfl⟩
            have h1 := (hconf _ hmem).1
            have h2 := (hconf _ hmem).2
            simp only [initSegB, beq_self_eq_true, Bool.true_and] at h1 h2
            exact ⟨h1, h2⟩
          obtain ⟨ch'', hins, hperm⟩ := ih ch0 (by simp) hsub
          have heq : insertParts f now ch (part :: p2 :: rest') =
              some (upsertChild part (.dir ch'') ch) := by
            simp only [insertParts, hl, hins, Option.map_some']
          refine ⟨_, heq, ?_⟩
          rw [hup, hch, leafCompsList_append, leafCompsList_append, leafCompsList,
            leafCompsList, leafComps, leafComps]
          have hm := hperm.map (fun e => ((part :: e.1, e.2) : List String × String))
          simp only [List.map_append, List.map_cons, List.map_nil] at hm
          refine (List.Perm.append_left _ (List.Perm.append_right _ hm)).trans ?_
          have h2 : leafCompsList pre ++
              ((List.map (fun e => ((part :: e.1, e.2) : List String × String))
                  (leafCompsList ch0) ++ [(part :: p2 :: rest', f.content)]) ++
                leafCompsList post) =
              (leafCompsList pre ++ List.map (fun e => ((part :: e.1, e.2) : List String × String))
                  (leafCompsList ch0)) ++
                ((part :: p2 :: rest', f.content) :: leafCompsList post) := by
            simp [List.append_assoc]
          rw [h2]
          refine (perm_middle_snoc _ _ _).trans ?_
          exact List.Perm.of_eq (by simp [List.append_assoc])

theorem pathParts_ne_nil (s : String) : pathParts s ≠ [] := by
  simp only [pathParts, ne_eq, List.map_eq_nil_iff]
  exact splitOnCharL_ne_nil '/' s.data

/-- Folding pairwise-compatible files into a trie succeeds and its leaves
are exactly the accumulated files (as a permutation). -/
theorem foldl_insert_leaves (now : Nat) :
    ∀ (files : List FileInput) (ch0 : List (String × NestedNode)),
    (∀ g ∈ files, ∀ e ∈ leafCompsList ch0,
      initSegB (pathParts g.path) e.1 = false ∧ initSegB e.1 (pathParts g.path) = false) →
    List.Pairwise (fun a b => pathsCompatible a.path b.path = true) files →
    ∃ ch, files.foldl (fun acc g => acc.bind fun c => insertParts g now c (pathParts g.path))
        (some ch0) = some ch ∧
      (leafCompsList ch).Perm
        (leafCompsList ch0 ++ files.map fun g => (pathParts g.path, g.content)) := by
  intro files
  induction files with
  | nil => intro ch0 _ _; exact ⟨ch0, rfl, by simp⟩
  | cons g rest ih =>
    intro ch0 hconf hpw
    obtain ⟨ch1, hins, hp1⟩ := insertParts_leaves g now (pathParts g.path) ch0
      (pathParts_ne_nil _) (hconf g (List.mem_cons_self _ _))
    have hpw' := List.pairwise_cons.mp hpw
    have hconf1 : ∀ h ∈ rest, ∀ e ∈ leafCompsList ch1,
        initSegB (pathParts h.path) e.1 = false ∧ initSegB e.1 (pathParts h.path) = false := by
      intro h hh e he
      have hmem := hp1.mem_iff.mp he
      rcases List.mem_append.mp hmem with hold | hnew
      · exact hconf h (List.mem_cons_of_mem _ hh) e hold
      · have : e = (pathParts g.path, g.content) := by simpa using hnew
        subst this
        have hcompat := hpw'.1 h hh
        rw [pathsCompatible, Bool.and_eq_true, Bool.not_eq_true', Bool.not_eq_true'] at hcompat
        exact ⟨hcompat.2, hcompat.1⟩
    obtain ⟨ch, hch, hperm⟩ := ih ch1 hconf1 hpw'.2
    refine ⟨ch, ?_, ?_⟩
    · have hstep : (some ch0).bind (fun c => insertParts g now c (pathParts g.path)) =
          some ch1 := hins
      rw [List.foldl_cons, hstep]
      exact hch
    · refine hperm.trans ?_
      refine (List.Perm.append_right _ hp1).trans ?_
      exact List.Perm.of_eq (by simp [List.append_assoc])

/-! ### Stage 3: reconstructing the original path strings -/

theorem charJoin_cons_cons (a b : List Char) (r : List (List Char)) :
    charJoin ((a ++ '/' :: b) :: r) = a ++ '/' :: charJoin (b :: r) := by
  cases r with
  | nil => rfl
  | cons x xs =>
    show (a ++ '/' :: b) ++ '/' :: charJoin (x :: xs) = a ++ '/' :: (b ++ '/' :: charJoin (x :: xs))
    simp [List.append_assoc]

theorem charJoin_splitOnCharL (l : List Char) :
    charJoin (splitOnCharL '/' l) = l := by
  induction l with
  | nil => rfl
  | cons c cs ih =>
    by_cases hc : c = '/'
    · subst hc
      rw [splitOnCharL_cons_self]
      rcases h : splitOnCharL '/' cs with _ | ⟨p, ps⟩
      · exact absurd h (splitOnCharL_ne_nil _ _)
      · rw [h] at ih
        show ([] : List Char) ++ '/' :: charJoin (p :: ps) = '/' :: cs
        rw [List.nil_append, ih]
    · rw [splitOnCharL_cons_ne _ _ _ hc]
      rcases h : splitOnCharL '/' cs with _ | ⟨p, ps⟩
      · exact absurd h (splitOnCharL_ne_nil _ _)
      · rw [h] at ih
        cases ps with
        | nil => show c :: p = c :: cs; rw [show charJoin [p] = p from rfl] at ih; rw [ih]
        | cons x xs =>
          show (c :: p) ++ '/' :: charJoin (x :: xs) = c :: cs
          rw [List.cons_append]
          rw [show p ++ '/' :: charJoin (x :: xs) = charJoin (p :: x :: xs) from rfl, ih]

theorem string_eq_of_data {a b : String} (h : a.data = b.data) : a = b := by
  cases a; cases b; exact congrArg String.mk h

theorem slash_string_ne_root (p c : String) : p ++ "/" ++ c ≠ "root" := by
  intro h
  have hd : (p ++ "/" ++ c).data = "root".data := by rw [h]
  rw [String.data_append, String.data_append] at hd
  have hmem : '/' ∈ (p.data ++ "/".data ++ c.data) := by
    refine List.mem_append.mpr (Or.inl (List.mem_append.mpr (Or.inr ?_)))
    simp [String.data]
  rw [hd] at hmem
  simp [String.data] at hmem

theorem joinPath_data (cs : List String) :
    ∀ (p : String), p ≠ "root" →
    (joinPath p cs).data = charJoin (p.data :: cs.map String.data) := by
  induction cs with
  | nil => intro p _; rfl
  | cons c cs' ih =>
    intro p hp
    rw [joinPath, childPathOf, if_neg hp]
    rw [ih _ (slash_string_ne_root p c)]
    have hdata : (p ++ "/" ++ c).data = p.data ++ '/' :: c.data := by
      rw [String.data_append, String.data_append, List.append_assoc]
      rfl
    rw [hdata, List.map_cons]
    exact charJoin_cons_cons p.data c.data (cs'.map String.data)

theorem data_pathParts (s : String) :
    (pathParts s).map String.data = splitOnCharL '/' s.data := by
  rw [pathParts, List.map_map]
  have : (String.data ∘ String.mk) = id := by
    funext l; rfl
  rw [this, List.map_id]

/-- For a `root`-safe path, walking the builder's child-path rule from the
synthetic root reconstructs the original path string. -/
theorem joinPath_root_pathParts (s : String) (hs : rootSafe s = true) :
    joinPath "root" (pathParts s) = s := by
  rcases h : pathParts s with _ | ⟨c, rest⟩
  · exact absurd h (pathParts_ne_nil s)
  · cases rest with
    | nil =>
      -- single component: pathParts s = [c] means s has no slash and c = s
      have hd : [c].map String.data = splitOnCharL '/' s.data := by rw [← h, data_pathParts]
      have hc : charJoin [c.data] = s.data := by
        rw [show ([c] : List String).map String.data = [c.data] from rfl] at hd
        rw [hd, charJoin_splitOnCharL]
      have hcs : c = s := string_eq_of_data (by simpa using hc)
      rw [joinPath, joinPath, childPathOf, if_pos rfl, hcs]
    | cons c2 rest' =>
      have hcroot : c ≠ "root" := by
        rw [rootSafe, h] at hs
        simp only [List.length_cons, List.headD_cons, Bool.or_eq_true, beq_iff_eq,
          bne_iff_ne, ne_eq] at hs
        rcases hs with hlen | hne
        · omega
        · exact hne
      rw [joinPath, childPathOf, if_pos rfl]
      refine string_eq_of_data ?_
      rw [joinPath_data _ _ hcroot]
      have : c.data :: (c2 :: rest').map String.data = (pathParts s).map String.data := by
        rw [h]
        rfl
      rw [this, data_pathParts, charJoin_splitOnCharL]

/-! ### C4, assembled -/

/-- C4 (amended): for every list of files whose paths are pairwise
compatible (no two equal, and no path's component sequence an initial
segment of another's) and none of which nests below a top-level component
literally named `root`, the tree builds and `compareTrees(null, tree)`
yields exactly one `Added` change per input file — as a permutation of the
input — whose `newHash` is the lowercase-hex SHA-256 of the UTF-8 encoding
of that file's content, and nothing else. -/
theorem compareTrees_null_build_added (files : List FileInput) (now : Nat)
    (hpw : List.Pairwise (fun a b => pathsCompatible a.path b.path = true) files)
    (hroot : ∀ f ∈ files, rootSafe f.path = true) :
    ∃ t, buildTreeFromFiles files now = some t ∧
      ((compareTrees none t).changes).Perm
        (files.map fun f =>
          (⟨.Added, f.path, none, some (hashContent f.content)⟩ : FileChange)) := by
  by_cases hlen : files.length = 0
  · obtain rfl : files = [] := List.length_eq_zero.mp hlen
    exact ⟨_, rfl, List.Perm.nil⟩
  · obtain ⟨ch, hch, hperm⟩ := foldl_insert_leaves now files []
      (by intro g _ e he; simp [leafCompsList] at he) hpw
    have hbn : buildNestedStructure files now = some (.dir ch) := by
      rw [buildNestedStructure, hch]
      rfl
    have hbt : buildTreeFromFiles files now =
        some (buildTreeFromNested (.dir ch) "root" now) := by
      rw [buildTreeFromFiles, if_neg hlen, hbn]
      rfl
    refine ⟨_, hbt, ?_⟩
    have h1 : (compareTrees none (buildTreeFromNested (.dir ch) "root" now)).changes =
        collectAddedRecursive (buildTreeFromNested (.dir ch) "root" now) := rfl
    rw [h1]
    refine (collectAdded_build (.dir ch) "root" now).trans ?_
    have h2 : leafComps (.dir ch) = leafCompsList ch := rfl
    rw [h2]
    have hp := hperm.map (fun e => mkAdded (joinPath "root" e.1) e.2)
    simp only [leafCompsList, List.nil_append, List.map_map] at hp
    refine hp.trans ?_
    refine List.Perm.of_eq ?_
    refine List.map_eq_map_iff.mpr ?_
    intro f hf
    show mkAdded (joinPath "root" (pathParts f.path)) f.content = _
    rw [mkAdded, joinPath_root_pathParts f.path (hroot f hf)]

/-- C4 counterexample: the inputs `a/b` then `a` have pairwise-distinct
paths, yet the build does not crash and the change list of
`compareTrees(null, ·)` contains a single `Added` for `a` only — the file
`a/b` was silently overwritten during nesting, so there is **not** one
`Added` per input path. -/
theorem compareTrees_null_missing_added :
    ((buildTreeFromFiles [⟨"a/b", "y", none, none⟩, ⟨"a", "x", none, none⟩] 1000).map
      fun t => ((compareTrees none t).changes).map (·.path)) = some ["a"] := by
  decide

/-- Witness for C4 (amended) at a concrete compatible input. -/
theorem compareTrees_null_build_added_witness :
    List.Pairwise (fun a b => pathsCompatible a.path b.path = true)
      ([⟨"b.ts", "x", none, none⟩, ⟨"a/c.ts", "y", none, none⟩] : List FileInput) ∧
    (∀ f ∈ ([⟨"b.ts", "x", none, none⟩, ⟨"a/c.ts", "y", none, none⟩] : List FileInput),
      rootSafe f.path = true) ∧
    ∃ t, buildTreeFromFiles [⟨"b.ts", "x", none, none⟩, ⟨"a/c.ts", "y", none, none⟩] 1000 =
        some t ∧
      ((compareTrees none t).changes).Perm
        (([⟨"b.ts", "x", none, none⟩, ⟨"a/c.ts", "y", none, none⟩] : List FileInput).map
          fun f => (⟨.Added, f.path, none, some (hashContent f.content)⟩ : FileChange)) :=
  ⟨by decide, by decide,
    compareTrees_null_build_added _ 1000 (by decide) (by decide)⟩

end C4

/-! ## C5 — input order does not affect the built tree

The proof goes through a canonical form: object-key order is the only thing
two insertion orders can change, so the built tries agree after sorting
every children list (`normForm`), and the Merkle conversion — which sorts
children itself — is invariant under that normalisation. -/

section C5

theorem eq_of_perm_of_sorted_natKey {α : Type} (key : α → List Nat) {l₁ l₂ : List α}
    (hp : l₁.Perm l₂)
    (hs₁ : List.Sorted (fun a b => listLeB (key a) (key b) = true) l₁)
    (hs₂ : List.Sorted (fun a b => listLeB (key a) (key b) = true) l₂)
    (hnd : (l₁.map key).Nodup) : l₁ = l₂ := by
  induction l₁ generalizing l₂ with
  | nil => exact (List.Perm.nil_eq hp).symm ▸ rfl
  | cons x xs ih =>
    cases l₂ with
    | nil => exact absurd hp.symm (by simp)
    | cons y ys =>
      by_cases hxy : x = y
      · subst hxy
        have hnd' : (xs.map key).Nodup := by
          simp only [List.map_cons, List.nodup_cons] at hnd
          exact hnd.2
        rw [ih hp.cons_inv hs₁.of_cons hs₂.of_cons hnd']
      · exfalso
        have hxys : x ∈ ys := by
          rcases List.mem_cons.mp (hp.subset (List.mem_cons_self x xs)) with h | h
          · exact absurd h hxy
          · exact h
        have hyxs : y ∈ xs := by
          rcases List.mem_cons.mp (hp.symm.subset (List.mem_cons_self y ys)) with h | h
          · exact absurd h.symm hxy
          · exact h
        have h1 : listLeB (key x) (key y) = true := (List.sorted_cons.mp hs₁).1 y hyxs
        have h2 : listLeB (key y) (key x) = true := (List.sorted_cons.mp hs₂).1 x hxys
        have hk : key x = key y := listLeB_antisymm h1 h2
        have hmem : key x ∈ xs.map key := by
          rw [hk]; exact List.mem_map_of_mem key hyxs
        simp only [List.map_cons, List.nodup_cons] at hnd
        exact hnd.1 hmem

theorem strKey_injective : Function.Injective strKey := by
  intro a b h
  have := List.map_injective_iff.mpr charToNat_injective h
  exact string_eq_of_data this

instance : IsTotal (String × NestedNode) pairLe := ⟨fun a b => listLeB_total (strKey a.1) (strKey b.1)⟩

instance : IsTrans (String × NestedNode) pairLe := ⟨fun _ _ _ => listLeB_trans⟩

/-! ### Association-list facts -/

theorem lookupChild_eq_none_iff (k : String) :
    ∀ ch : List (String × NestedNode), lookupChild k ch = none ↔ k ∉ ch.map (·.1) := by
  intro ch
  induction ch with
  | nil => simp [lookupChild]
  | cons e rest ih =>
    obtain ⟨k', v'⟩ := e
    rw [lookupChild]
    by_cases hk : k' = k
    · subst hk
      simp
    · rw [if_neg hk, ih]
      simp only [List.map_cons, List.mem_cons, not_or]
      constructor
      · intro h
        exact ⟨fun he => hk he.symm, h⟩
      · intro h
        exact h.2

theorem lookupChild_mem {k : String} {n : NestedNode} :
    ∀ {ch : List (String × NestedNode)}, lookupChild k ch = some n → (k, n) ∈ ch := by
  intro ch
  induction ch with
  | nil => intro h; simp [lookupChild] at h
  | cons e rest ih =>
    obtain ⟨k', v'⟩ := e
    intro h
    rw [lookupChild] at h
    by_cases hk : k' = k
    · rw [if_pos hk] at h
      obtain rfl : v' = n := Option.some.injEq .. ▸ h
      subst hk
      exact List.mem_cons_self _ _
    · rw [if_neg hk] at h
      exact List.mem_cons_of_mem _ (ih h)

theorem lookupChild_upsert_self (k : String) (v : NestedNode) :
    ∀ ch, lookupChild k (upsertChild k v ch) = some v := by
  intro ch
  induction ch with
  | nil => simp [upsertChild, lookupChild]
  | cons e rest ih =>
    obtain ⟨k', v'⟩ := e
    rw [upsertChild]
    by_cases hk : k' = k
    · rw [if_pos hk, lookupChild, if_pos rfl]
    · rw [if_neg hk, lookupChild, if_neg hk]
      exact ih

theorem lookupChild_upsert_ne (k k' : String) (v : NestedNode) (hne : k' ≠ k) :
    ∀ ch, lookupChild k (upsertChild k' v ch) = lookupChild k ch := by
  intro ch
  induction ch with
  | nil => simp [upsertChild, lookupChild, hne]
  | cons e rest ih =>
    obtain ⟨k'', v''⟩ := e
    rw [upsertChild]
    by_cases hk : k'' = k'
    · subst hk
      rw [if_pos rfl, lookupChild, lookupChild, if_neg hne, if_neg hne]
    · rw [if_neg hk, lookupChild, lookupChild]
      by_cases hk2 : k'' = k
      · rw [if_pos hk2, if_pos hk2]
      · rw [if_neg hk2, if_neg hk2, ih]

theorem upsertChild_upsert_self (k : String) (a b : NestedNode) :
    ∀ ch, upsertChild k b (upsertChild k a ch) = upsertChild k b ch := by
  intro ch
  induction ch with
  | nil => simp [upsertChild]
  | cons e rest ih =>
    obtain ⟨k', v'⟩ := e
    rw [upsertChild]
    by_cases hk : k' = k
    · rw [if_pos hk, upsertChild, if_pos rfl, upsertChild, if_pos hk]
    · rw [if_neg hk, upsertChild, if_neg hk, upsertChild, if_neg hk, ih]

theorem keys_upsert_of_lookup_some {k : String} {n0 : NestedNode} (v : NestedNode)
    {ch : List (String × NestedNode)} (h : lookupChild k ch = some n0) :
    (upsertChild k v ch).map (·.1) = ch.map (·.1) := by
  obtain ⟨pre, post, hch, hup⟩ := lookupChild_some_split h
  rw [hup v, hch]
  simp

theorem keys_upsert_of_lookup_none {k : String} (v : NestedNode)
    {ch : List (String × NestedNode)} (h : lookupChild k ch = none) :
    (upsertChild k v ch).map (·.1) = ch.map (·.1) ++ [k] := by
  rw [upsertChild_of_lookup_none _ h]
  simp

theorem nodup_keys_upsert (k : String) (v : NestedNode)
    {ch : List (String × NestedNode)} (h : (ch.map (·.1)).Nodup) :
    ((upsertChild k v ch).map (·.1)).Nodup := by
  rcases hl : lookupChild k ch with _ | n0
  · rw [keys_upsert_of_lookup_none v hl]
    have hk : k ∉ ch.map (·.1) := (lookupChild_eq_none_iff k ch).mp hl
    simp [List.nodup_append, h, hk]
  · rw [keys_upsert_of_lookup_some v hl]
    exact h

/-- With pairwise-distinct keys, an association list binds each key to at
most one value. -/
theorem mem_keyed_unique {k : String} :
    ∀ {ch : List (String × NestedNode)} {a b : NestedNode},
    (ch.map (·.1)).Nodup → (k, a) ∈ ch → (k, b) ∈ ch → a = b := by
  intro ch
  induction ch with
  | nil => intro a b _ ha _; simp at ha
  | cons e rest ih =>
    obtain ⟨k', v'⟩ := e
    intro a b hnd ha hb
    simp only [List.map_cons, List.nodup_cons] at hnd
    rcases List.mem_cons.mp ha with ha' | ha' <;> rcases List.mem_cons.mp hb with hb' | hb'
    · injection ha' with h1 h2
      injection hb' with h3 h4
      rw [h2, h4]
    · injection ha' with h1 h2
      exfalso
      apply hnd.1
      rw [← h1]
      exact List.mem_map.mpr ⟨(k, b), hb', rfl⟩
    · injection hb' with h3 h4
      exfalso
      apply hnd.1
      rw [← h3]
      exact List.mem_map.mpr ⟨(k, a), ha', rfl⟩
    · exact ih hnd.2 ha' hb'

theorem lookupChild_of_perm {k : String} :
    ∀ {ch₁ ch₂ : List (String × NestedNode)}, ch₁.Perm ch₂ → (ch₁.map (·.1)).Nodup →
    lookupChild k ch₁ = lookupChild k ch₂ := by
  intro ch₁ ch₂ hp hnd
  rcases h1 : lookupChild k ch₁ with _ | n1
  · rcases h2 : lookupChild k ch₂ with _ | n2
    · rfl
    · exfalso
      have hm := lookupChild_mem h2
      have : (k, n2) ∈ ch₁ := hp.symm.subset hm
      have hk : k ∈ ch₁.map (·.1) := List.mem_map.mpr ⟨(k, n2), this, rfl⟩
      exact ((lookupChild_eq_none_iff k ch₁).mp h1) hk
  · have hm1 : (k, n1) ∈ ch₂ := hp.subset (lookupChild_mem h1)
    rcases h2 : lookupChild k ch₂ with _ | n2
    · exfalso
      have hk : k ∈ ch₂.map (·.1) := List.mem_map.mpr ⟨(k, n1), hm1, rfl⟩
      exact ((lookupChild_eq_none_iff k ch₂).mp h2) hk
    · -- both found: with distinct keys the entry is unique
      have hm2 : (k, n2) ∈ ch₁ := hp.symm.subset (lookupChild_mem h2)
      rw [mem_keyed_unique hnd (lookupChild_mem h1) hm2]

theorem upsertChild_perm (k : String) (v : NestedNode) :
    ∀ {ch₁ ch₂ : List (String × NestedNode)}, ch₁.Perm ch₂ → (ch₁.map (·.1)).Nodup →
    (upsertChild k v ch₁).Perm (upsertChild k v ch₂) := by
  intro ch₁ ch₂ hp hnd
  rcases hl : lookupChild k ch₁ with _ | n0
  · have hl2 : lookupChild k ch₂ = none := by rw [← lookupChild_of_perm hp hnd, hl]
    rw [upsertChild_of_lookup_none _ hl, upsertChild_of_lookup_none _ hl2]
    exact hp.append_right _
  · have hl2 : lookupChild k ch₂ = some n0 := by rw [← lookupChild_of_perm hp hnd, hl]
    obtain ⟨pre1, post1, hch1, hup1⟩ := lookupChild_some_split hl
    obtain ⟨pre2, post2, hch2, hup2⟩ := lookupChild_some_split hl2
    rw [hup1 v, hup2 v]
    have h1 : (pre1 ++ (k, n0) :: post1).Perm ((k, n0) :: (pre1 ++ post1)) := List.perm_middle
    have h2 : (pre2 ++ (k, n0) :: post2).Perm ((k, n0) :: (pre2 ++ post2)) := List.perm_middle
    have hmid : (pre1 ++ post1).Perm (pre2 ++ post2) := by
      have := (h1.symm.trans ((hch1 ▸ hp).trans (hch2 ▸ List.Perm.refl ch₂))).trans h2
      exact this.cons_inv
    exact (List.perm_middle).trans ((hmid.cons _).trans List.perm_middle.symm)

/-! ### Normalisation facts -/

theorem normChildren_eq_map (ch : List (String × NestedNode)) :
    normChildren ch = ch.map fun e => (e.1, normTrie e.2) := by
  induction ch with
  | nil => rfl
  | cons e rest ih =>
    obtain ⟨k, v⟩ := e
    rw [normChildren, ih]
    rfl

theorem keys_normChildren (ch : List (String × NestedNode)) :
    (normChildren ch).map (·.1) = ch.map (·.1) := by
  rw [normChildren_eq_map, List.map_map]
  rfl

theorem normTrie_dir (ch : List (String × NestedNode)) :
    normTrie (.dir ch) = .dir (normForm ch) := rfl

theorem lookupChild_normChildren (k : String) :
    ∀ ch, lookupChild k (normChildren ch) = (lookupChild k ch).map normTrie := by
  intro ch
  induction ch with
  | nil => rfl
  | cons e rest ih =>
    obtain ⟨k', v'⟩ := e
    rw [normChildren, lookupChild, lookupChild]
    by_cases hk : k' = k
    · rw [if_pos hk, if_pos hk, Option.map_some']
    · rw [if_neg hk, if_neg hk, ih]

theorem normChildren_upsert (k : String) (v : NestedNode) :
    ∀ ch, normChildren (upsertChild k v ch) =
      upsertChild k (normTrie v) (normChildren ch) := by
  intro ch
  induction ch with
  | nil => rfl
  | cons e rest ih =>
    obtain ⟨k', v'⟩ := e
    rw [upsertChild, normChildren]
    by_cases hk : k' = k
    · rw [if_pos hk, normChildren, upsertChild, if_pos hk]
    · rw [if_neg hk, normChildren, ih, upsertChild, if_neg hk]

/-- The canonical form of an in-place update depends only on the canonical
forms of the list and the value (given distinct keys). -/
theorem normForm_upsert_congr {k : String} {v₁ v₂ : NestedNode}
    {ch₁ ch₂ : List (String × NestedNode)}
    (h₁ : (ch₁.map (·.1)).Nodup) (_h₂ : (ch₂.map (·.1)).Nodup)
    (hn : normForm ch₁ = normForm ch₂) (hv : normTrie v₁ = normTrie v₂) :
    normForm (upsertChild k v₁ ch₁) = normForm (upsertChild k v₂ ch₂) := by
  have hnd₁ : ((normChildren ch₁).map (·.1)).Nodup := by rw [keys_normChildren]; exact h₁
  have hperm : (normChildren ch₁).Perm (normChildren ch₂) := by
    have h2 : (normForm ch₂).Perm (normChildren ch₂) :=
      List.perm_insertionSort pairLe (normChildren ch₂)
    rw [← hn] at h2
    exact (List.perm_insertionSort pairLe (normChildren ch₁)).symm.trans h2
  have hup : (upsertChild k (normTrie v₁) (normChildren ch₁)).Perm
      (upsertChild k (normTrie v₁) (normChildren ch₂)) :=
    upsertChild_perm k (normTrie v₁) hperm hnd₁
  rw [normForm, normForm, normChildren_upsert, normChildren_upsert, hv]
  refine eq_of_perm_of_sorted_natKey (fun e => strKey e.1) ?_ ?_ ?_ ?_
  · exact (List.perm_insertionSort _ _).trans ((hv ▸ hup).trans (List.perm_insertionSort _ _).symm)
  · exact List.sorted_insertionSort pairLe _
  · exact List.sorted_insertionSort pairLe _
  · have hk : ((upsertChild k (normTrie v₂) (normChildren ch₁)).map (·.1)).Nodup :=
      nodup_keys_upsert k _ hnd₁
    have hkp : ((List.insertionSort pairLe (upsertChild k (normTrie v₂) (normChildren ch₁))).map
        (·.1)).Perm ((upsertChild k (normTrie v₂) (normChildren ch₁)).map (·.1)) :=
      (List.perm_insertionSort pairLe _).map _
    have : ((List.insertionSort pairLe (upsertChild k (normTrie v₂)
        (normChildren ch₁))).map (·.1)).Nodup := hkp.nodup_iff.mpr hk
    have hfin := this.map strKey_injective
    rw [List.map_map] at hfin
    exact hfin

/-! ### Factoring one insertion by its head component -/

theorem insertParts_shape (f : FileInput) (now : Nat) (ch : List (String × NestedNode))
    (k : String) (tail : List String) :
    insertParts f now ch (k :: tail) =
      (nodeAfterInsert f now (lookupChild k ch) tail).map fun X => upsertChild k X ch := by
  cases tail with
  | nil => rfl
  | cons p2 rest =>
    cases hl : lookupChild k ch with
    | none =>
      simp only [insertParts, hl, nodeAfterInsert, Option.map_map]
      rfl
    | some n =>
      cases n with
      | file c s m =>
        simp only [insertParts, hl, nodeAfterInsert]
        rfl
      | dir chD =>
        simp only [insertParts, hl, nodeAfterInsert, Option.map_map]
        rfl

/-! ### Deep name-distinctness is preserved by insertion -/

theorem dnnList_iff_forall : ∀ ch : List (String × NestedNode),
    dnnList ch ↔ ∀ e ∈ ch, dnnNode e.2 := by
  intro ch
  induction ch with
  | nil => simp [dnnList]
  | cons e rest ih =>
    obtain ⟨k, v⟩ := e
    rw [dnnList, ih]
    constructor
    · rintro ⟨h1, h2⟩ e he
      rcases List.mem_cons.mp he with rfl | he'
      · exact h1
      · exact h2 e he'
    · intro h
      exact ⟨h (k, v) (List.mem_cons_self _ _), fun e he => h e (List.mem_cons_of_mem _ he)⟩

theorem dnnList_upsert {k : String} {v : NestedNode} (hv : dnnNode v) :
    ∀ {ch}, dnnList ch → dnnList (upsertChild k v ch) := by
  intro ch
  induction ch with
  | nil => intro _; exact ⟨hv, trivial⟩
  | cons e rest ih =>
    obtain ⟨k', v'⟩ := e
    rintro ⟨h1, h2⟩
    rw [upsertChild]
    by_cases hk : k' = k
    · rw [if_pos hk]; exact ⟨hv, h2⟩
    · rw [if_neg hk]; exact ⟨h1, ih h2⟩

theorem dnn_of_lookup {k : String} {n : NestedNode} {ch : List (String × NestedNode)}
    (hd : dnnList ch) (hl : lookupChild k ch = some n) : dnnNode n :=
  (dnnList_iff_forall ch).mp hd (k, n) (lookupChild_mem hl)

theorem insertParts_dnn (f : FileInput) (now : Nat) :
    ∀ (parts : List String) {ch ch' : List (String × NestedNode)},
    (ch.map (·.1)).Nodup → dnnList ch → insertParts f now ch parts = some ch' →
    ((ch'.map (·.1)).Nodup ∧ dnnList ch') := by
  intro parts
  induction parts with
  | nil => intro ch ch' _ _ h; exact absurd h (by simp [insertParts])
  | cons k tail ih =>
    intro ch ch' hnd hdnn h
    cases tail with
    | nil =>
      rw [insertParts] at h
      obtain rfl := Option.some.inj h
      refine ⟨nodup_keys_upsert k (.file f.content f.size (orNow f.lastModified now)) hnd, ?_⟩
      exact dnnList_upsert
        (show dnnNode (.file f.content f.size (orNow f.lastModified now)) from trivial) hdnn
    | cons p2 rest =>
      cases hl : lookupChild k ch with
      | none =>
        simp only [insertParts, hl] at h
        cases hin : insertParts f now [] (p2 :: rest) with
        | none => rw [hin] at h; simp at h
        | some chI =>
          rw [hin, Option.map_some'] at h
          obtain rfl := Option.some.inj h
          have hI := ih (by simp) (show dnnList ([] : List (String × NestedNode)) from trivial) hin
          refine ⟨nodup_keys_upsert k (.dir chI) hnd, ?_⟩
          exact dnnList_upsert (show dnnNode (.dir chI) from ⟨hI.1, hI.2⟩) hdnn
      | some n =>
        cases n with
        | file c s m =>
          simp only [insertParts, hl] at h
          exact Option.noConfusion h
        | dir chD =>
          simp only [insertParts, hl] at h
          cases hin : insertParts f now chD (p2 :: rest) with
          | none => rw [hin] at h; simp at h
          | some chI =>
            rw [hin, Option.map_some'] at h
            obtain rfl := Option.some.inj h
            have hdD : ((chD.map (·.1)).Nodup ∧ dnnList chD) := dnn_of_lookup hdnn hl
            have hI := ih hdD.1 hdD.2 hin
            refine ⟨nodup_keys_upsert k (.dir chI) hnd, ?_⟩
            exact dnnList_upsert (show dnnNode (.dir chI) from ⟨hI.1, hI.2⟩) hdnn

/-! ### Commuting two property writes with distinct keys -/

theorem upsertChild_cons_hit {k k' : String} (v v' : NestedNode)
    (rest : List (String × NestedNode)) (h : k' = k) :
    upsertChild k v ((k', v') :: rest) = (k, v) :: rest := by
  rw [upsertChild, if_pos h]

theorem upsertChild_cons_ne {k k' : String} (v v' : NestedNode)
    (rest : List (String × NestedNode)) (h : k' ≠ k) :
    upsertChild k v ((k', v') :: rest) = (k', v') :: upsertChild k v rest := by
  rw [upsertChild, if_neg h]

theorem upsertChild_comm_perm (k₁ k₂ : String) (a b : NestedNode) (hne : k₁ ≠ k₂) :
    ∀ ch, (upsertChild k₁ a (upsertChild k₂ b ch)).Perm
      (upsertChild k₂ b (upsertChild k₁ a ch)) := by
  have hne' : k₂ ≠ k₁ := Ne.symm hne
  intro ch
  induction ch with
  | nil =>
    show (upsertChild k₁ a [(k₂, b)]).Perm (upsertChild k₂ b [(k₁, a)])
    rw [upsertChild_cons_ne a b [] hne', upsertChild_cons_ne b a [] hne]
    exact List.Perm.swap _ _ _
  | cons e rest ih =>
    obtain ⟨k', v'⟩ := e
    by_cases h2 : k' = k₂
    · have h1 : k' ≠ k₁ := fun h => hne' (h2 ▸ h ▸ rfl)
      rw [upsertChild_cons_hit b v' rest h2, upsertChild_cons_ne a b rest hne',
        upsertChild_cons_ne a v' rest h1, upsertChild_cons_hit b v' (upsertChild k₁ a rest) h2]
    · by_cases h1 : k' = k₁
      · rw [upsertChild_cons_ne b v' rest h2,
          upsertChild_cons_hit a v' (upsertChild k₂ b rest) h1,
          upsertChild_cons_hit a v' rest h1,
          upsertChild_cons_ne b a rest hne]
      · rw [upsertChild_cons_ne b v' rest h2,
          upsertChild_cons_ne a v' (upsertChild k₂ b rest) h1,
          upsertChild_cons_ne a v' rest h1,
          upsertChild_cons_ne b v' (upsertChild k₁ a rest) h2]
        exact List.Perm.cons _ ih

/-! ### Canonical forms through permutations and lookups -/

theorem normForm_of_perm {ch₁ ch₂ : List (String × NestedNode)} (hp : ch₁.Perm ch₂)
    (hnd : (ch₁.map (·.1)).Nodup) : normForm ch₁ = normForm ch₂ := by
  have hp' : (normChildren ch₁).Perm (normChildren ch₂) := by
    rw [normChildren_eq_map, normChildren_eq_map]
    exact hp.map _
  refine eq_of_perm_of_sorted_natKey (fun e => strKey e.1) ?_ ?_ ?_ ?_
  · exact (List.perm_insertionSort _ _).trans (hp'.trans (List.perm_insertionSort _ _).symm)
  · exact List.sorted_insertionSort pairLe _
  · exact List.sorted_insertionSort pairLe _
  · have h1 : ((normChildren ch₁).map (·.1)).Nodup := by rw [keys_normChildren]; exact hnd
    have h2 : ((List.insertionSort pairLe (normChildren ch₁)).map (·.1)).Nodup :=
      (((List.perm_insertionSort pairLe _).map _).nodup_iff).mpr h1
    have hfin := h2.map strKey_injective
    rw [List.map_map] at hfin
    exact hfin

theorem lookupChild_norm_congr (k : String) {ch₁ ch₂ : List (String × NestedNode)}
    (h₁ : (ch₁.map (·.1)).Nodup) (hn : normForm ch₁ = normForm ch₂) :
    (lookupChild k ch₁).map normTrie = (lookupChild k ch₂).map normTrie := by
  have hnd₁ : ((normChildren ch₁).map (·.1)).Nodup := by rw [keys_normChildren]; exact h₁
  have hperm : (normChildren ch₁).Perm (normChildren ch₂) := by
    have h2 : (normForm ch₂).Perm (normChildren ch₂) :=
      List.perm_insertionSort pairLe (normChildren ch₂)
    rw [← hn] at h2
    exact (List.perm_insertionSort pairLe (normChildren ch₁)).symm.trans h2
  rw [← lookupChild_normChildren, ← lookupChild_normChildren]
  exact lookupChild_of_perm hperm hnd₁

theorem option_map_congr_of_map_eq {α β γ : Type} (nf : α → β) {o₁ o₂ : Option α}
    (h : o₁.map nf = o₂.map nf) {f g : α → γ}
    (hfg : ∀ a b, nf a = nf b → f a = g b) : o₁.map f = o₂.map g := by
  cases o₁ with
  | none =>
    cases o₂ with
    | none => rfl
    | some b => simp at h
  | some a =>
    cases o₂ with
    | none => simp at h
    | some b =>
      simp only [Option.map_some'] at h ⊢
      exact congrArg some (hfg a b (Option.some.inj h))

/-- Inserting the same file into two children lists with the same canonical
form produces results with the same canonical form (and the same
success/failure behaviour). -/
theorem insertParts_norm_congr (f : FileInput) (now : Nat) :
    ∀ (parts : List String) {ch₁ ch₂ : List (String × NestedNode)},
    (ch₁.map (·.1)).Nodup → (ch₂.map (·.1)).Nodup → dnnList ch₁ → dnnList ch₂ →
    normForm ch₁ = normForm ch₂ →
    (insertParts f now ch₁ parts).map normForm =
      (insertParts f now ch₂ parts).map normForm := by
  intro parts
  induction parts with
  | nil => intro ch₁ ch₂ _ _ _ _ _; rfl
  | cons k tail ih =>
    intro ch₁ ch₂ hnd₁ hnd₂ hd₁ hd₂ hn
    cases tail with
    | nil =>
      simp only [insertParts, Option.map_some']
      exact congrArg some (normForm_upsert_congr hnd₁ hnd₂ hn rfl)
    | cons p2 rest =>
      have hlook := lookupChild_norm_congr k hnd₁ hn
      cases hl₁ : lookupChild k ch₁ with
      | none =>
        rw [hl₁] at hlook
        cases hl₂ : lookupChild k ch₂ with
        | some n₂ => rw [hl₂] at hlook; simp at hlook
        | none =>
          simp only [insertParts, hl₁, hl₂]
          rw [Option.map_map, Option.map_map]
          refine option_map_congr_of_map_eq normForm rfl ?_
          intro a b hab
          exact normForm_upsert_congr hnd₁ hnd₂ hn (by rw [normTrie_dir, normTrie_dir, hab])
      | some n₁ =>
        rw [hl₁] at hlook
        cases hl₂ : lookupChild k ch₂ with
        | none => rw [hl₂] at hlook; simp at hlook
        | some n₂ =>
          rw [hl₂] at hlook
          simp only [Option.map_some'] at hlook
          have hnn : normTrie n₁ = normTrie n₂ := Option.some.inj hlook
          cases n₁ with
          | file c s m =>
            cases n₂ with
            | file c₂ s₂ m₂ => simp only [insertParts, hl₁, hl₂]
            | dir chB => exact absurd hnn (by simp [normTrie])
          | dir chA =>
            cases n₂ with
            | file c₂ s₂ m₂ => exact absurd hnn (by simp [normTrie])
            | dir chB =>
              have hn' : normForm chA = normForm chB := by
                rw [normTrie_dir, normTrie_dir] at hnn
                exact NestedNode.dir.inj hnn
              have hdA : ((chA.map (·.1)).Nodup ∧ dnnList chA) := dnn_of_lookup hd₁ hl₁
              have hdB : ((chB.map (·.1)).Nodup ∧ dnnList chB) := dnn_of_lookup hd₂ hl₂
              simp only [insertParts, hl₁, hl₂]
              rw [Option.map_map, Option.map_map]
              refine option_map_congr_of_map_eq normForm
                (ih hdA.1 hdB.1 hdA.2 hdB.2 hn') ?_
              intro a b hab
              exact normForm_upsert_congr hnd₁ hnd₂ hn (by rw [normTrie_dir, normTrie_dir, hab])

/-- Two same-head insertions factor through the subtree at the head key. -/
theorem twoInsert_same_head (f g : FileInput) (now : Nat)
    (ch chD : List (String × NestedNode)) (p a b : String) (pt qt : List String)
    (hcase : lookupChild p ch = some (.dir chD) ∨ (lookupChild p ch = none ∧ chD = [])) :
    ((insertParts f now ch (p :: a :: pt)).bind fun chx =>
        insertParts g now chx (p :: b :: qt)) =
      ((insertParts f now chD (a :: pt)).bind fun chf => insertParts g now chf (b :: qt)).map
        fun chfg => upsertChild p (.dir chfg) ch := by
  have hshape1 : insertParts f now ch (p :: a :: pt) =
      (insertParts f now chD (a :: pt)).map fun chf => upsertChild p (.dir chf) ch := by
    rw [insertParts_shape]
    rcases hcase with hl | ⟨hl, rfl⟩
    · rw [hl]
      simp only [nodeAfterInsert, Option.map_map]
      rfl
    · rw [hl]
      simp only [nodeAfterInsert, Option.map_map]
      rfl
  rw [hshape1]
  cases hin : insertParts f now chD (a :: pt) with
  | none => rfl
  | some chf =>
    simp only [Option.map_some', Option.some_bind]
    rw [insertParts_shape, lookupChild_upsert_self]
    simp only [nodeAfterInsert, Option.map_map]
    cases hin2 : insertParts g now chf (b :: qt) with
    | none => rfl
    | some chfg =>
      simp only [Option.map_some', Function.comp_apply]
      rw [upsertChild_upsert_self]

/-- Two insertions of path-compatible files commute up to canonical form
(including their success/failure behaviour). -/
theorem insertParts_comm_norm (f g : FileInput) (now : Nat) :
    ∀ (ps qs : List String) {ch : List (String × NestedNode)},
    (ch.map (·.1)).Nodup → dnnList ch →
    initSegB ps qs = false → initSegB qs ps = false →
    ((insertParts f now ch ps).bind fun chx => insertParts g now chx qs).map normForm =
      ((insertParts g now ch qs).bind fun chx => insertParts f now chx ps).map normForm := by
  intro ps
  induction ps with
  | nil => intro qs ch _ _ hpq _; simp [initSegB] at hpq
  | cons p pt ih =>
    intro qs ch hnd hdnn hpq hqp
    cases qs with
    | nil => simp [initSegB] at hqp
    | cons q qt =>
      by_cases hhead : p = q
      · subst hhead
        have hpq' : initSegB pt qt = false := by simpa [initSegB] using hpq
        have hqp' : initSegB qt pt = false := by simpa [initSegB] using hqp
        cases pt with
        | nil => simp [initSegB] at hpq'
        | cons a pt' =>
          cases qt with
          | nil => simp [initSegB] at hqp'
          | cons b qt' =>
            cases hl : lookupChild p ch with
            | some n =>
              cases n with
              | file c s m =>
                rw [insertParts_shape f now ch p (a :: pt'),
                  insertParts_shape g now ch p (b :: qt'), hl]
                rfl
              | dir chD =>
                have hdD : ((chD.map (·.1)).Nodup ∧ dnnList chD) := dnn_of_lookup hdnn hl
                rw [twoInsert_same_head f g now ch chD p a b pt' qt' (Or.inl hl),
                  twoInsert_same_head g f now ch chD p b a qt' pt' (Or.inl hl)]
                rw [Option.map_map, Option.map_map]
                refine option_map_congr_of_map_eq normForm
                  (ih (b :: qt') hdD.1 hdD.2 hpq' hqp') ?_
                intro x y hxy
                exact normForm_upsert_congr hnd hnd rfl
                  (by rw [normTrie_dir, normTrie_dir, hxy])
            | none =>
              rw [twoInsert_same_head f g now ch [] p a b pt' qt' (Or.inr ⟨hl, rfl⟩),
                twoInsert_same_head g f now ch [] p b a qt' pt' (Or.inr ⟨hl, rfl⟩)]
              rw [Option.map_map, Option.map_map]
              refine option_map_congr_of_map_eq normForm
                (ih (b :: qt') (by simp)
                  (show dnnList ([] : List (String × NestedNode)) from trivial) hpq' hqp') ?_
              intro x y hxy
              exact normForm_upsert_congr hnd hnd rfl
                (by rw [normTrie_dir, normTrie_dir, hxy])
      · have hqp_ne : q ≠ p := fun h => hhead h.symm
        rw [insertParts_shape f now ch p pt, insertParts_shape g now ch q qt]
        cases hX : nodeAfterInsert f now (lookupChild p ch) pt with
        | none =>
          cases hY : nodeAfterInsert g now (lookupChild q ch) qt with
          | none => rfl
          | some Y =>
            simp only [Option.map_none', Option.none_bind, Option.map_some', Option.some_bind]
            rw [insertParts_shape f now _ p pt, lookupChild_upsert_ne p q Y hqp_ne, hX]
            rfl
        | some X =>
          cases hY : nodeAfterInsert g now (lookupChild q ch) qt with
          | none =>
            simp only [Option.map_some', Option.some_bind, Option.map_none', Option.none_bind]
            rw [insertParts_shape g now _ q qt, lookupChild_upsert_ne q p X hhead, hY]
            rfl
          | some Y =>
            simp only [Option.map_some', Option.some_bind]
            rw [insertParts_shape g now _ q qt, lookupChild_upsert_ne q p X hhead, hY,
              insertParts_shape f now _ p pt, lookupChild_upsert_ne p q Y hqp_ne, hX]
            simp only [Option.map_some']
            exact congrArg some (normForm_of_perm (upsertChild_comm_perm q p Y X hqp_ne ch)
              (nodup_keys_upsert q Y (nodup_keys_upsert p X hnd)))

/-! ### The fold over the file list -/

theorem pathsCompatible_symm {p q : String} (h : pathsCompatible p q = true) :
    pathsCompatible q p = true := by
  simp only [pathsCompatible, Bool.and_eq_true] at h ⊢
  exact ⟨h.2, h.1⟩

theorem accDnn_empty : accDnn (some ([] : List (String × NestedNode))) := by
  intro ch h
  obtain rfl : ([] : List (String × NestedNode)) = ch := Option.some.inj h
  exact ⟨List.nodup_nil, trivial⟩

theorem accDnn_stepIns {now : Nat} {acc : Option (List (String × NestedNode))}
    (h : accDnn acc) (f : FileInput) : accDnn (stepIns now acc f) := by
  intro ch hch
  cases hacc : acc with
  | none => rw [hacc] at hch; simp [stepIns] at hch
  | some ch0 =>
    rw [hacc] at hch
    simp only [stepIns, Option.some_bind] at hch
    obtain ⟨h1, h2⟩ := h ch0 hacc
    exact insertParts_dnn f now (pathParts f.path) h1 h2 hch

theorem stepIns_norm_congr {now : Nat} {acc₁ acc₂ : Option (List (String × NestedNode))}
    (h₁ : accDnn acc₁) (h₂ : accDnn acc₂)
    (hn : acc₁.map normForm = acc₂.map normForm) (f : FileInput) :
    (stepIns now acc₁ f).map normForm = (stepIns now acc₂ f).map normForm := by
  cases hacc₁ : acc₁ with
  | none =>
    cases hacc₂ : acc₂ with
    | none => rfl
    | some ch₂ => rw [hacc₁, hacc₂] at hn; simp at hn
  | some ch₁ =>
    cases hacc₂ : acc₂ with
    | none => rw [hacc₁, hacc₂] at hn; simp at hn
    | some ch₂ =>
      rw [hacc₁, hacc₂] at hn
      simp only [Option.map_some'] at hn
      have hnf : normForm ch₁ = normForm ch₂ := Option.some.inj hn
      obtain ⟨h₁a, h₁b⟩ := h₁ ch₁ hacc₁
      obtain ⟨h₂a, h₂b⟩ := h₂ ch₂ hacc₂
      simp only [stepIns, Option.some_bind]
      exact insertParts_norm_congr f now (pathParts f.path) h₁a h₂a h₁b h₂b hnf

theorem stepIns_comm {now : Nat} {acc : Option (List (String × NestedNode))}
    (h : accDnn acc) (f g : FileInput)
    (hc : pathsCompatible f.path g.path = true) :
    (stepIns now (stepIns now acc f) g).map normForm =
      (stepIns now (stepIns now acc g) f).map normForm := by
  cases hacc : acc with
  | none => rfl
  | some ch =>
    obtain ⟨h1, h2⟩ := h ch hacc
    simp only [pathsCompatible, Bool.and_eq_true, Bool.not_eq_true'] at hc
    exact insertParts_comm_norm f g now (pathParts f.path) (pathParts g.path)
      h1 h2 hc.1 hc.2

theorem foldl_stepIns_accDnn (now : Nat) :
    ∀ (l : List FileInput) {acc}, accDnn acc → accDnn (l.foldl (stepIns now) acc) := by
  intro l
  induction l with
  | nil => intro acc h; exact h
  | cons x t ih => intro acc h; exact ih (accDnn_stepIns h x)

theorem foldl_stepIns_congr (now : Nat) :
    ∀ (l : List FileInput) {acc₁ acc₂}, accDnn acc₁ → accDnn acc₂ →
    acc₁.map normForm = acc₂.map normForm →
    (l.foldl (stepIns now) acc₁).map normForm =
      (l.foldl (stepIns now) acc₂).map normForm := by
  intro l
  induction l with
  | nil => intro acc₁ acc₂ _ _ hn; exact hn
  | cons x t ih =>
    intro acc₁ acc₂ h₁ h₂ hn
    exact ih (accDnn_stepIns h₁ x) (accDnn_stepIns h₂ x) (stepIns_norm_congr h₁ h₂ hn x)

/-- Folding the insertions over any permutation of a pairwise-compatible file
list yields the same accumulator up to canonical form. -/
theorem foldl_stepIns_perm (now : Nat) {l₁ l₂ : List FileInput} (hp : l₁.Perm l₂) :
    ∀ {acc}, accDnn acc →
    l₁.Pairwise (fun a b => pathsCompatible a.path b.path = true) →
    (l₁.foldl (stepIns now) acc).map normForm =
      (l₂.foldl (stepIns now) acc).map normForm := by
  induction hp with
  | nil => intro acc _ _; rfl
  | cons x p ih =>
    intro acc h hpw
    simp only [List.foldl_cons]
    exact ih (accDnn_stepIns h x) (List.Pairwise.of_cons hpw)
  | swap x y l =>
    intro acc h hpw
    simp only [List.foldl_cons]
    have hyx : pathsCompatible y.path x.path = true :=
      (List.pairwise_cons.mp hpw).1 x (List.mem_cons_self _ _)
    refine foldl_stepIns_congr now l (accDnn_stepIns (accDnn_stepIns h y) x)
      (accDnn_stepIns (accDnn_stepIns h x) y) ?_
    exact stepIns_comm h y x hyx
  | trans p₁ p₂ ih₁ ih₂ =>
    intro acc h hpw
    rw [ih₁ h hpw]
    exact ih₂ h ((p₁.pairwise_iff fun hab => pathsCompatible_symm hab).mp hpw)

/-! ### The converter is invariant under canonicalising its input -/

theorem buildChildList_eq_map (p : String) (now : Nat) :
    ∀ entries, buildChildList entries p now =
      entries.map fun e => buildTreeFromNested e.2 (childPathOf p e.1) now := by
  intro entries
  induction entries with
  | nil => rfl
  | cons e rest ih =>
    obtain ⟨name, c⟩ := e
    rw [buildChildList, ih]
    rfl

theorem childPathOf_inj (p : String) : Function.Injective (childPathOf p) := by
  intro n₁ n₂ h
  unfold childPathOf at h
  by_cases hp : p = "root"
  · rw [if_pos hp, if_pos hp] at h
    exact h
  · rw [if_neg hp, if_neg hp] at h
    have hd : ((p ++ "/").data ++ n₁.data) = ((p ++ "/").data ++ n₂.data) := by
      have := congrArg String.data h
      simpa [String.data_append] using this
    exact string_eq_of_data (List.append_cancel_left hd)

theorem path_buildTreeFromNested (n : NestedNode) (p : String) (now : Nat) :
    (buildTreeFromNested n p now).path = p := by
  cases n with
  | file c s m => rfl
  | dir ch => rfl

theorem buildDir_congr {ch₁ ch₂ : List (String × NestedNode)} (p : String) (now : Nat)
    (h : List.insertionSort nodeLe (buildChildList ch₁ p now) =
      List.insertionSort nodeLe (buildChildList ch₂ p now)) :
    buildTreeFromNested (.dir ch₁) p now = buildTreeFromNested (.dir ch₂) p now := by
  rw [buildTreeFromNested, buildTreeFromNested, h]

mutual

/-- Converting the canonical form of a nested node yields the same JSON tree
as converting the node itself (children get re-sorted by the converter, and
the sort key is injective across distinct sibling names). -/
theorem buildTreeFromNested_norm (n : NestedNode) (hd : dnnNode n) (p : String) (now : Nat) :
    buildTreeFromNested (normTrie n) p now = buildTreeFromNested n p now := by
  cases n with
  | file c s m => rfl
  | dir ch =>
    have hd' : ((ch.map (·.1)).Nodup ∧ dnnList ch) := hd
    obtain ⟨hnd, hdl⟩ := hd'
    show buildTreeFromNested (.dir (List.insertionSort pairLe (normChildren ch))) p now =
      buildTreeFromNested (.dir ch) p now
    have hmid : (normChildren ch).map
        (fun e => buildTreeFromNested e.2 (childPathOf p e.1) now) =
        ch.map fun e => buildTreeFromNested e.2 (childPathOf p e.1) now := by
      rw [normChildren_eq_map, List.map_map]
      exact buildChildList_normed ch hdl p now
    have hperm : (buildChildList (List.insertionSort pairLe (normChildren ch)) p now).Perm
        (buildChildList ch p now) := by
      rw [buildChildList_eq_map, buildChildList_eq_map, ← hmid]
      exact (List.perm_insertionSort pairLe (normChildren ch)).map _
    have hpaths : ((buildChildList ch p now).map (·.path)).Nodup := by
      rw [buildChildList_eq_map, List.map_map]
      have heq : ch.map ((fun c => c.path) ∘
          fun e => buildTreeFromNested e.2 (childPathOf p e.1) now) =
          ch.map fun e => childPathOf p e.1 :=
        List.map_congr_left fun e _ => path_buildTreeFromNested e.2 (childPathOf p e.1) now
      rw [heq]
      have heq2 : (ch.map fun e => childPathOf p e.1) =
          (ch.map (·.1)).map (childPathOf p) := by
        rw [List.map_map]
        rfl
      rw [heq2]
      exact hnd.map (childPathOf_inj p)
    refine buildDir_congr p now ?_
    refine eq_of_perm_of_sorted_key (fun c => c.path) ?_ ?_ ?_ ?_
    · exact (List.perm_insertionSort nodeLe _).trans
        (hperm.trans (List.perm_insertionSort nodeLe _).symm)
    · exact List.sorted_insertionSort nodeLe _
    · exact List.sorted_insertionSort nodeLe _
    · have hp2 : ((List.insertionSort nodeLe
          (buildChildList (List.insertionSort pairLe (normChildren ch)) p now)).map
          (·.path)).Perm ((buildChildList ch p now).map (·.path)) :=
        ((List.perm_insertionSort nodeLe _).trans hperm).map _
      exact hp2.nodup_iff.mpr hpaths

/-- List version of `buildTreeFromNested_norm` over the entries of one
directory level. -/
theorem buildChildList_normed (ch : List (String × NestedNode)) (hdl : dnnList ch)
    (p : String) (now : Nat) :
    (ch.map fun e => buildTreeFromNested (normTrie e.2) (childPathOf p e.1) now) =
      ch.map fun e => buildTreeFromNested e.2 (childPathOf p e.1) now := by
  cases ch with
  | nil => rfl
  | cons e rest =>
    obtain ⟨k, c⟩ := e
    have hdl' : (dnnNode c ∧ dnnList rest) := hdl
    simp only [List.map_cons]
    rw [buildTreeFromNested_norm c hdl'.1 (childPathOf p k) now,
      buildChildList_normed rest hdl'.2 p now]

end

theorem buildNestedStructure_eq_foldl (files : List FileInput) (now : Nat) :
    buildNestedStructure files now =
      (files.foldl (stepIns now) (some [])).map .dir := rfl

/-- `buildTreeFromFiles` returns literally the same tree on any permutation
of a pairwise-compatible file list. -/
theorem buildTreeFromFiles_perm (files₁ files₂ : List FileInput) (now : Nat)
    (hp : files₁.Perm files₂)
    (hc : files₁.Pairwise fun a b => pathsCompatible a.path b.path = true) :
    buildTreeFromFiles files₁ now = buildTreeFromFiles files₂ now := by
  unfold buildTreeFromFiles
  have hlen : files₁.length = files₂.length := hp.length_eq
  by_cases h0 : files₁.length = 0
  · rw [if_pos h0, if_pos (hlen.symm.trans h0)]
  · rw [if_neg h0, if_neg fun hh => h0 (hlen.trans hh)]
    have hfold := foldl_stepIns_perm now hp accDnn_empty hc
    have hd₁ := foldl_stepIns_accDnn now files₁ accDnn_empty
    have hd₂ := foldl_stepIns_accDnn now files₂ accDnn_empty
    rw [buildNestedStructure_eq_foldl, buildNestedStructure_eq_foldl]
    cases h₁ : files₁.foldl (stepIns now) (some []) with
    | none =>
      rw [h₁] at hfold
      cases h₂ : files₂.foldl (stepIns now) (some []) with
      | none => rfl
      | some ch₂ => rw [h₂] at hfold; simp at hfold
    | some ch₁ =>
      rw [h₁] at hfold
      cases h₂ : files₂.foldl (stepIns now) (some []) with
      | none => rw [h₂] at hfold; simp at hfold
      | some ch₂ =>
        rw [h₂] at hfold
        simp only [Option.map_some'] at hfold ⊢
        have hnf : normForm ch₁ = normForm ch₂ := Option.some.inj hfold
        obtain ⟨hk₁, hdl₁⟩ := hd₁ ch₁ h₁
        obtain ⟨hk₂, hdl₂⟩ := hd₂ ch₂ h₂
        refine congrArg some ?_
        have b₁ := buildTreeFromNested_norm (.dir ch₁)
          (show dnnNode (.dir ch₁) from ⟨hk₁, hdl₁⟩) "root" now
        have b₂ := buildTreeFromNested_norm (.dir ch₂)
          (show dnnNode (.dir ch₂) from ⟨hk₂, hdl₂⟩) "root" now
        rw [← b₁, ← b₂, normTrie_dir, normTrie_dir, hnf]

/-- C5 (amended): for file lists whose paths are pairwise compatible
(pairwise distinct and no path's `/`-component sequence an initial segment
of another's), the root hash returned by `buildTreeFromFiles` on any
permutation of the list equals the root hash on the original list. -/
theorem buildTree_hash_perm_invariant (files₁ files₂ : List FileInput) (now : Nat)
    (hp : files₁.Perm files₂)
    (hc : files₁.Pairwise fun a b => pathsCompatible a.path b.path = true) :
    (buildTreeFromFiles files₁ now).map (fun t => t.hash) =
      (buildTreeFromFiles files₂ now).map fun t => t.hash := by
  rw [buildTreeFromFiles_perm files₁ files₂ now hp hc]

set_option maxRecDepth 20000 in
/-- Counterexample to the unqualified claim: two files with the same path
`a` and different contents form a permutation pair, yet last-write-wins
makes the two input orders produce different root hashes. -/
theorem buildTree_hash_not_perm_invariant :
    ([⟨"a", "x", none, none⟩, ⟨"a", "y", none, none⟩] : List FileInput).Perm
      [⟨"a", "y", none, none⟩, ⟨"a", "x", none, none⟩] ∧
    (buildTreeFromFiles [⟨"a", "x", none, none⟩, ⟨"a", "y", none, none⟩] 0).map
        (fun t => t.hash) ≠
      (buildTreeFromFiles [⟨"a", "y", none, none⟩, ⟨"a", "x", none, none⟩] 0).map
        fun t => t.hash :=
  ⟨by decide, by decide⟩

set_option maxRecDepth 20000 in
theorem buildTree_hash_perm_invariant_witness :
    (([⟨"b", "x", none, none⟩, ⟨"a", "y", none, none⟩] : List FileInput).Perm
        [⟨"a", "y", none, none⟩, ⟨"b", "x", none, none⟩] ∧
      ([⟨"b", "x", none, none⟩, ⟨"a", "y", none, none⟩] : List FileInput).Pairwise
        (fun a b => pathsCompatible a.path b.path = true)) ∧
    (buildTreeFromFiles [⟨"b", "x", none, none⟩, ⟨"a", "y", none, none⟩] 0).map
        (fun t => t.hash) =
      (buildTreeFromFiles [⟨"a", "y", none, none⟩, ⟨"b", "x", none, none⟩] 0).map
        fun t => t.hash :=
  ⟨⟨by decide, by decide⟩, buildTree_hash_perm_invariant _ _ 0 (by decide) (by decide)⟩

end C5

end Insien
